import Mathlib

/-!
# graphic-packs-updater: a shallow embedding and its properties

The program (`graphic-packs-updater.go`) loads a release page, finds the path of
the newest `graphicPacks*.zip` asset with a regular expression, downloads it
unless a file of that name is already present, and extracts a selection of its
entries below `graphicPacks`.

Go strings and byte slices are both modelled as lists of characters (Go
converts between the two without changing the content).  The library routines the program calls (`strings`, `path/filepath`
in its Unix build, `regexp`, `os`, `net/http`, `archive/zip`) are modelled next
to the program: the pure ones as functions, the operating system and the
network as an explicit world state with an environment of outcomes.
-/

namespace GraphicPacksUpdater

/-- A Go string. -/
abbrev Str := List Char

deriving instance DecidableEq for Except

/-! ## Package `strings` -/

namespace strings

/-- `strings.HasPrefix(s, p)`: `s` begins with `p`. -/
def HasPrefix : Str → Str → Bool
  | _, [] => true
  | [], _ :: _ => false
  | x :: xs, p :: ps => if x = p then HasPrefix xs ps else false

/-- `strings.Contains(s, substr)`: `substr` occurs within `s`. -/
def Contains : Str → Str → Bool
  | [], substr => HasPrefix [] substr
  | x :: xs, substr => HasPrefix (x :: xs) substr || Contains xs substr

end strings

/-! ## Package `os` constants and `path/filepath` (Unix) -/

namespace os

/-- `os.PathSeparator` on Unix. -/
def PathSeparator : Char := '/'

/-- `os.ModePerm`, the permission bits `0777`. -/
def ModePerm : Nat := 0o777

def O_RDONLY : Nat := 0
def O_WRONLY : Nat := 1
def O_RDWR : Nat := 2
def O_CREATE : Nat := 0o100
def O_TRUNC : Nat := 0o1000

end os

namespace filepath

/-- The elements of a path between separators (empty elements included). -/
def elements : Str → List Str
  | [] => [[]]
  | c :: cs =>
    if c = os.PathSeparator then [] :: elements cs
    else
      match elements cs with
      | [] => [[c]]
      | e :: es => (c :: e) :: es

/-- One element of `Clean`'s scan; `out` holds the kept elements, last first.
Empty and `.` elements are dropped; `..` removes the last kept real element,
is kept itself when nothing can be removed in a relative path, and is dropped
at the root of a rooted path. -/
def cleanStep (rooted : Bool) (out : List Str) (e : Str) : List Str :=
  if e = [] then out
  else if e = ['.'] then out
  else if e = ['.', '.'] then
    match out with
    | [] => if rooted then [] else [e]
    | top :: below => if top = ['.', '.'] then e :: out else below
  else e :: out

/-- The kept elements joined by single separators. -/
def joinElements : List Str → Str
  | [] => []
  | [e] => e
  | e :: es => e ++ os.PathSeparator :: joinElements es

/-- `filepath.Clean(path)`: the shortest path name equivalent to `path` by
purely lexical processing; the empty result is `.`. -/
def Clean (path : Str) : Str :=
  match path with
  | [] => ['.']
  | c :: _ =>
    let rooted := decide (c = os.PathSeparator)
    let kept := ((elements path).foldl (cleanStep rooted) []).reverse
    if rooted then os.PathSeparator :: joinElements kept
    else if kept = [] then ['.']
    else joinElements kept

/-- `filepath.Join(a, b)`: the first non-empty argument onwards, joined with
the separator and cleaned; empty when both are empty. -/
def Join (a b : Str) : Str :=
  if a ≠ [] then Clean (a ++ os.PathSeparator :: b)
  else if b ≠ [] then Clean b
  else []

/-- Drop trailing separators. -/
def stripTrailing (path : Str) : Str :=
  (path.reverse.dropWhile (fun c => c = os.PathSeparator)).reverse

/-- What follows the last separator (everything when there is none). -/
def lastElement (path : Str) : Str :=
  (path.reverse.takeWhile (fun c => c ≠ os.PathSeparator)).reverse

/-- `filepath.Base(path)`: the last element of `path`. -/
def Base (path : Str) : Str :=
  if path = [] then ['.']
  else
    let e := lastElement (stripTrailing path)
    if e = [] then [os.PathSeparator] else e

/-- `filepath.Dir(path)`: all but the last element of `path`, cleaned. -/
def Dir (path : Str) : Str :=
  Clean (path.reverse.dropWhile (fun c => c ≠ os.PathSeparator)).reverse

end filepath

/-! ## The program's constants -/

def extractDir : Str := "graphicPacks".toList

def rootURL : Str := "https://github.com/slashiee/cemu_graphic_packs/releases".toList

def gfxPackOnly : List Str :=
  ["BreathOfTheWild".toList, "MarioKart8".toList, "SuperMario3DWorld".toList]

/-! ## `shouldUnzip` -/

/-- The loop of `shouldUnzip` over the filter list: `false` at the first
filter string that occurs in `fpath`, `true` when none does. -/
def shouldUnzipLoop (fpath : Str) : List Str → Bool
  | [] => true
  | v :: vs => if strings.Contains fpath v then false else shouldUnzipLoop fpath vs

/-- `shouldUnzip(fpath)`, with the package variable `gfxPackOnly` passed as
`only`. -/
def shouldUnzip (only : List Str) (fpath : Str) : Bool :=
  if only.length = 0 then true
  else shouldUnzipLoop fpath only

/-! ## Package `regexp`, as far as the program's pattern needs it -/

namespace regexp

/-- The pieces the program's pattern is made of. -/
inductive Node where
  /-- One literal character. -/
  | lit (c : Char)
  /-- The pattern `.`: any character but a line feed. -/
  | anyNotNL
  /-- The pattern `.*`: any run of characters other than line feeds, greedy. -/
  | starAnyNotNL
  deriving DecidableEq, Repr

/-- `regexp.MustCompile(str)`, for patterns written with literal characters,
`.` and `.*` only. -/
def MustCompile : Str → List Node
  | [] => []
  | '.' :: '*' :: rest => Node.starAnyNotNL :: MustCompile rest
  | '.' :: rest => Node.anyNotNL :: MustCompile rest
  | c :: rest => Node.lit c :: MustCompile rest

/-- The greedy `.*` in front of the continuation `k`: the backtracking search
first tries to take one more character, and falls back to `k` here. -/
def star (k : Str → Option Nat) : Str → Option Nat
  | [] => k []
  | x :: xs =>
    if x = '\n' then k (x :: xs)
    else
      match star k xs with
      | some n => some (n + 1)
      | none => k (x :: xs)

/-- The match of the pattern at the start of `s` that a backtracking search
finds first, as the number of characters it spans. -/
def run : List Node → Str → Option Nat
  | [] => fun _ => some 0
  | Node.lit c :: ps => fun s =>
    match s with
    | [] => none
    | x :: xs => if x = c then (run ps xs).map (· + 1) else none
  | Node.anyNotNL :: ps => fun s =>
    match s with
    | [] => none
    | x :: xs => if x = '\n' then none else (run ps xs).map (· + 1)
  | Node.starAnyNotNL :: ps => star (run ps)

/-- The leftmost match in `s`. -/
def find (ps : List Node) : Str → Option Str
  | [] => (run ps []).map (fun n => List.take n [])
  | x :: xs =>
    match run ps (x :: xs) with
    | some n => some ((x :: xs).take n)
    | none => find ps xs

/-- `re.FindStringSubmatch(s)` for a pattern without groups: the text of the
leftmost match alone, or nil. -/
def FindStringSubmatch (ps : List Node) (s : Str) : List Str :=
  match find ps s with
  | some m => [m]
  | none => []

end regexp

/-- The compiled pattern `re`. -/
def re : List regexp.Node := regexp.MustCompile "/download/.*/graphicPacks.*.zip".toList

/-- `findFilePath(text)`. -/
def findFilePath (text : Str) : Except Str Str :=
  let found := regexp.FindStringSubmatch re text
  match found with
  | [] => Except.error "search key no matches".toList
  | m :: _ => Except.ok m

/-! ## The world: file system, network, terminal -/

/-- An `http.Response` as far as the program reads it: reading the body
delivers `body` and then ends, with `readErr` if the transfer broke. -/
structure Response where
  body : Str
  readErr : Option Str
  deriving DecidableEq, Repr

/-- One `zip.File` of an opened archive. `openErr` is the error of `f.Open()`,
`content` what the opened entry delivers, `readErr` the error that ends the
reading (a bad checksum, say). -/
structure ZipFile where
  Name : Str
  isDir : Bool
  mode : Nat
  openErr : Option Str
  content : Str
  readErr : Option Str
  deriving DecidableEq, Repr

/-- A change made to the file system. -/
inductive FsEvent where
  /-- `os.MkdirAll(path, perm)` went through. -/
  | mkdirAll (path : Str) (perm : Nat)
  /-- `os.OpenFile` created the file `path`. -/
  | create (path : Str) (perm : Nat)
  /-- `os.OpenFile` truncated the existing file `path`. -/
  | truncate (path : Str)
  /-- `data` was written to the start of the file `path`. -/
  | write (path : Str) (data : Str)
  deriving DecidableEq, Repr

/-- The path an event changes. -/
def FsEvent.path : FsEvent → Str
  | FsEvent.mkdirAll p _ => p
  | FsEvent.create p _ => p
  | FsEvent.truncate p => p
  | FsEvent.write p _ => p

/-- The state the program runs in and changes. -/
structure World where
  /-- The regular files, by path, with their content. -/
  files : List (Str × Str)
  /-- The directories made so far. -/
  dirs : List Str
  /-- The URLs requested with `http.Get`, in order. -/
  requests : List Str
  /-- The changes made to the file system, in order. -/
  fsLog : List FsEvent
  /-- What was printed, one item per call. -/
  stdout : List Str
  /-- The status `os.Exit` was called with. -/
  exitCode : Option Nat
  deriving DecidableEq, Repr

/-- The outcomes the program does not decide itself. -/
structure Env where
  /-- The result of `http.Get(url)`. -/
  httpGet : Str → Except Str Response
  /-- The result of `zip.OpenReader(src)`: the entries of the archive. -/
  zipOpenReader : World → Str → Except Str (List ZipFile)
  /-- The error of `os.MkdirAll(path, _)`, if it fails. -/
  mkdirAllErr : World → Str → Option Str
  /-- The error of `os.OpenFile(path, flag, _)`, if the system refuses it. -/
  openFileErr : World → Str → Nat → Option Str
  /-- The error of writing to the open file `path`, if the system refuses it. -/
  writeErr : World → Str → Option Str
  /-- The error of `os.Stat(path)` other than the file not existing. -/
  statErr : World → Str → Option Str

/-- The content of the file `path`, if there is one. -/
def World.content (w : World) (path : Str) : Option Str :=
  (w.files.find? (fun f => f.1 = path)).map (fun f => f.2)

/-- Something named `path` exists. -/
def World.present (w : World) (path : Str) : Bool :=
  (w.content path).isSome || w.dirs.contains path

/-- The files with `path` holding `data`. -/
def World.store (w : World) (path : Str) (data : Str) : List (Str × Str) :=
  (path, data) :: w.files.filter (fun f => f.1 ≠ path)

namespace fmt

/-- The operands of `Println`, separated by spaces. -/
def spaced : List Str → Str
  | [] => []
  | [a] => a
  | a :: as => a ++ ' ' :: spaced as

/-- `fmt.Println(operands...)`. -/
def Println (w : World) (operands : List Str) : World :=
  { w with stdout := w.stdout ++ [spaced operands ++ ['\n']] }

/-- `fmt.Print(operand)`. -/
def Print (w : World) (operand : Str) : World :=
  { w with stdout := w.stdout ++ [operand] }

end fmt

namespace os

/-- An open `*os.File`. -/
structure File where
  name : Str
  writable : Bool
  deriving DecidableEq, Repr

/-- The result of `os.Stat`, as far as the program looks at it. -/
inductive StatResult where
  | found
  | notExist
  | failed (e : Str)
  deriving DecidableEq, Repr

/-- `os.Stat(path)`. -/
def Stat (env : Env) (w : World) (path : Str) : StatResult :=
  match env.statErr w path with
  | some e => StatResult.failed e
  | none => if w.present path then StatResult.found else StatResult.notExist

/-- `os.IsNotExist(err)` for the error of `os.Stat`. -/
def IsNotExist (r : StatResult) : Bool :=
  match r with
  | StatResult.notExist => true
  | _ => false

/-- `os.MkdirAll(path, perm)`. -/
def MkdirAll (env : Env) (w : World) (path : Str) (perm : Nat) : Option Str × World :=
  match env.mkdirAllErr w path with
  | some e => (some e, w)
  | none =>
    (none, { w with dirs := w.dirs ++ [path], fsLog := w.fsLog ++ [FsEvent.mkdirAll path perm] })

/-- `os.OpenFile(path, flag, perm)`. The file is made when it is missing and
`O_CREATE` is set, emptied when it exists and `O_TRUNC` is set on a handle open
for writing; the handle is open for writing only with `O_WRONLY` or `O_RDWR`. -/
def OpenFile (env : Env) (w : World) (path : Str) (flag : Nat) (perm : Nat) :
    Except Str File × World :=
  let writable := decide (flag &&& 3 ≠ O_RDONLY)
  match env.openFileErr w path flag with
  | some e => (Except.error e, w)
  | none =>
    match w.content path with
    | none =>
      if flag &&& O_CREATE ≠ 0 then
        (Except.ok ⟨path, writable⟩,
          { w with files := w.store path [], fsLog := w.fsLog ++ [FsEvent.create path perm] })
      else (Except.error ("open ".toList ++ path ++ ": no such file or directory".toList), w)
    | some _ =>
      if flag &&& O_TRUNC ≠ 0 ∧ writable then
        (Except.ok ⟨path, writable⟩,
          { w with files := w.store path [], fsLog := w.fsLog ++ [FsEvent.truncate path] })
      else (Except.ok ⟨path, writable⟩, w)

/-- Writing `data` at the start of the open file `f`. -/
def write (env : Env) (w : World) (f : File) (data : Str) : Option Str × World :=
  if !f.writable then (some ("write ".toList ++ f.name ++ ": bad file descriptor".toList), w)
  else
    match env.writeErr w f.name with
    | some e => (some e, w)
    | none =>
      let old := (w.content f.name).getD []
      (none, { w with files := w.store f.name (data ++ old.drop data.length),
                      fsLog := w.fsLog ++ [FsEvent.write f.name data] })

/-- `os.Exit(code)`. -/
def Exit (w : World) (code : Nat) : World :=
  { w with exitCode := some code }

end os

/-- `io.Copy(dst, src)` for a source that delivers `data` and then ends with
`readErr`: the number of bytes written and the first error. Nothing is
written when the source delivers nothing. -/
def ioCopy (env : Env) (w : World) (dst : os.File) (data : Str) (readErr : Option Str) :
    (Nat × Option Str) × World :=
  if data = [] then ((0, readErr), w)
  else
    match os.write env w dst data with
    | (some e, w) => ((0, some e), w)
    | (none, w) => ((data.length, readErr), w)

/-! ## `download` -/

/-- `download(path)`: the file name, or the error, and the world afterwards. -/
def download (env : Env) (w : World) (path : Str) : Except Str Str × World :=
  let url := rootURL ++ path
  let filename := filepath.Base url
  let w := fmt.Println w ["downloading".toList, url]
  let w := { w with requests := w.requests ++ [url] }
  match env.httpGet url with
  | Except.error e => (Except.error e, w)
  | Except.ok resp =>
    match os.OpenFile env w filename (os.O_RDONLY ||| os.O_CREATE) 0o666 with
    | (Except.error e, w) => (Except.error e, w)
    | (Except.ok file, w) =>
      match ioCopy env w file resp.body resp.readErr with
      | ((_, some e), w) => (Except.error e, w)
      | ((n, none), w) =>
        let w := fmt.Println w ["downloaded".toList, filename, (Nat.repr (n / 1000)).toList,
          "KB".toList]
        (Except.ok filename, w)

/-! ## `unzip` -/

/-- What `unzip` returns, and the world afterwards. -/
structure Unzipped where
  filenames : List Str
  err : Option Str
  world : World
  deriving DecidableEq, Repr

/-- How one pass of the loop body ends: on to the next entry, or `return`. -/
inductive LoopStep where
  | next (filenames : List Str) (w : World)
  | ret (r : Unzipped)
  deriving DecidableEq, Repr

/-- The body of the loop of `unzip` for the entry `f`, with the file names
gathered so far. -/
def unzipEntry (env : Env) (only : List Str) (dest : Str) (f : ZipFile)
    (filenames : List Str) (w : World) : LoopStep :=
  match f.openErr with
  | some e => LoopStep.ret ⟨filenames, some e, w⟩
  | none =>
    -- Store filename/path for returning and using later on
    let fpath := filepath.Join dest f.Name
    -- Skip selected graphic packs.
    if shouldUnzip only fpath then LoopStep.next filenames w
    -- Check for ZipSlip.
    else if !strings.HasPrefix fpath (filepath.Clean dest ++ [os.PathSeparator]) then
      LoopStep.ret ⟨filenames, some (fpath ++ ": illegal file path".toList), w⟩
    else
      let filenames := filenames ++ [fpath]
      if f.isDir then
        let w := fmt.Println w ["extracting".toList, fpath]
        -- Make Folder
        let w := (os.MkdirAll env w fpath os.ModePerm).2
        LoopStep.next filenames w
      else
        -- Make File
        match os.MkdirAll env w (filepath.Dir fpath) os.ModePerm with
        | (some e, w) => LoopStep.ret ⟨filenames, some e, w⟩
        | (none, w) =>
          match os.OpenFile env w fpath (os.O_WRONLY ||| os.O_CREATE ||| os.O_TRUNC) f.mode with
          | (Except.error e, w) => LoopStep.ret ⟨filenames, some e, w⟩
          | (Except.ok outFile, w) =>
            match ioCopy env w outFile f.content f.readErr with
            | ((_, some e), w) => LoopStep.ret ⟨filenames, some e, w⟩
            | ((_, none), w) => LoopStep.next filenames w

/-- The loop of `unzip` over the entries of the archive. -/
def unzipLoop (env : Env) (only : List Str) (dest : Str) :
    List ZipFile → List Str → World → Unzipped
  | [], filenames, w => ⟨filenames, none, w⟩
  | f :: rest, filenames, w =>
    match unzipEntry env only dest f filenames w with
    | LoopStep.ret r => r
    | LoopStep.next filenames w => unzipLoop env only dest rest filenames w

/-- `unzip(src, dest)`, with the package variable `gfxPackOnly` passed as
`only`. -/
def unzip (env : Env) (only : List Str) (w : World) (src dest : Str) : Unzipped :=
  match env.zipOpenReader w src with
  | Except.error e => ⟨[], some e, w⟩
  | Except.ok files => unzipLoop env only dest files [] w

/-! ## `main` and its helpers -/

/-- `exit()`: the prompt, the wait for a line, and `os.Exit(0)`. -/
def exit (w : World) : World :=
  os.Exit (fmt.Print w "Press 'Enter' to finish...".toList) 0

/-- `fail(v...)`: print and exit. -/
def fail (w : World) (v : List Str) : World :=
  exit (fmt.Println w v)

/-- `intro()`: the banner (and a pause of one second). -/
def intro (w : World) : World :=
  let w := fmt.Println w ["---------------------------------------".toList]
  let w := fmt.Println w ["\tGraphic Packs Updater".toList]
  fmt.Println w ["---------------------------------------".toList]

/-- `main()`: one run of the program, from the world `w` to the world at
`os.Exit`. -/
def main (env : Env) (w : World) : World :=
  let w := intro w
  let url := rootURL ++ "/latest".toList
  let w := fmt.Println w ["loading".toList, url]
  let w := { w with requests := w.requests ++ [url] }
  match env.httpGet url with
  | Except.error e => fail w ["could not load url:".toList, e]
  | Except.ok resp =>
    match resp.readErr with
    | some e => fail w ["could not read body:".toList, e]
    | none =>
      match findFilePath resp.body with
      | Except.error e => fail w ["could not find path:".toList, e]
      | Except.ok path =>
        -- Check for existing graphic packs
        let filename := filepath.Base path
        if !os.IsNotExist (os.Stat env w filename) then
          exit (fmt.Println w ["your graphic-packs is up-to-date!".toList, filename])
        else
          match download env w path with
          | (Except.error e, w) => fail w ["could not download file:".toList, e]
          | (Except.ok _, w) =>
            let w := fmt.Println w ["extracting".toList, filename, "to".toList, extractDir]
            match unzip env gfxPackOnly w filename extractDir with
            | ⟨_, some e, w⟩ => fail w ["could extraction failed:".toList, e]
            | ⟨_, none, w⟩ => exit (fmt.Println w ["update done!".toList])

/-- A world with nothing in it. -/
def World.empty : World := ⟨[], [], [], [], [], none⟩

/-- An environment in which the network delivers `page` for every URL, the
archive holds `entries`, and the system refuses nothing. -/
def Env.plain (page : Str) (entries : List ZipFile) : Env where
  httpGet := fun _ => Except.ok ⟨page, none⟩
  zipOpenReader := fun _ _ => Except.ok entries
  mkdirAllErr := fun _ _ => none
  openFileErr := fun _ _ _ => none
  writeErr := fun _ _ => none
  statErr := fun _ _ => none




/-! ## Vocabulary of the statements -/

/-- The target path of the entry `f` under `dest`. -/
def target (dest : Str) (f : ZipFile) : Str := filepath.Join dest f.Name

/-- The destination root followed by the separator, as the escape check of
`unzip` spells it. -/
def rootSlash (dest : Str) : Str := filepath.Clean dest ++ [os.PathSeparator]

/-- The entry opens and gets past the selection and past the escape check of
`unzip`. -/
def passes (only : List Str) (dest : Str) (f : ZipFile) : Bool :=
  f.openErr.isNone && !shouldUnzip only (target dest f) &&
    strings.HasPrefix (target dest f) (rootSlash dest)

/-- The file-system changes that extracting to the target path `t` may make:
a change of `t` itself, or making the directory that is to hold it. -/
def entryEvent (t : Str) (ev : FsEvent) : Prop :=
  ev.path = t ∨ ev = FsEvent.mkdirAll (filepath.Dir t) os.ModePerm

/-- From `w1` to `w2` the log of file-system changes grew by changes that all
satisfy `P`, and no request was made. -/
def Grows (P : FsEvent → Prop) (w1 w2 : World) : Prop :=
  ∃ added, w2.fsLog = w1.fsLog ++ added ∧ (∀ ev ∈ added, P ev) ∧ w2.requests = w1.requests

/-- The text holds no line feed. -/
def NoNL (u : Str) : Prop := ∀ x ∈ u, x ≠ '\n'

/-- The text `w`, as a whole, is matched by the pattern. -/
def Matches : List regexp.Node → Str → Prop
  | [], w => w = []
  | regexp.Node.lit c :: ps, w => ∃ w2, w = c :: w2 ∧ Matches ps w2
  | regexp.Node.anyNotNL :: ps, w => ∃ x w2, x ≠ '\n' ∧ w = x :: w2 ∧ Matches ps w2
  | regexp.Node.starAnyNotNL :: ps, w => ∃ u w2, NoNL u ∧ w = u ++ w2 ∧ Matches ps w2

/-- The text has the shape of an asset path: `/download/`, anything,
`/graphicPacks`, anything, `.zip`. -/
def AssetPath (w : Str) : Prop :=
  ∃ X Y, w = "/download/".toList ++ X ++ "/graphicPacks".toList ++ Y ++ ".zip".toList

/-- An asset path within one line: the two free parts hold no line feed. -/
def AssetPathOnLine (w : Str) : Prop :=
  ∃ X Y, NoNL X ∧ NoNL Y ∧
    w = "/download/".toList ++ X ++ "/graphicPacks".toList ++ Y ++ ".zip".toList

/-- The kept elements of a cleaned path, last first: none is empty, `.` or
holds a separator; `..` stands only at the front of a relative path, so below
a `..` there are only `..`. -/
def Kept (rooted : Bool) (out : List Str) : Prop :=
  (∀ e ∈ out, e ≠ [] ∧ e ≠ ['.'] ∧ os.PathSeparator ∉ e) ∧
  (rooted = true → ∀ e ∈ out, e ≠ ['.', '.']) ∧
  List.Chain' (fun top below => top = ['.', '.'] → below = ['.', '.']) out

/-- The path `Clean` writes for the kept elements, first to last. -/
def rendered (rooted : Bool) (kept : List Str) : Str :=
  if rooted then os.PathSeparator :: filepath.joinElements kept
  else if kept = [] then ['.']
  else filepath.joinElements kept

/-! ## Sample archives -/

/-- A file entry `name` with the content `data`. -/
def ZipFile.plain (name data : Str) : ZipFile := ⟨name, false, 0o644, none, data, none⟩

/-- The filter list of the selection example. -/
def onlyBreath : List Str := ["BreathOfTheWild".toList]

/-- The two entries of the selection example. -/
def selectionArchive : List ZipFile :=
  [ZipFile.plain "graphicPacks/BreathOfTheWild/a.txt".toList "a".toList,
   ZipFile.plain "graphicPacks/Other/b.txt".toList "b".toList]

/-- An archive whose one entry points out of the destination and names no
pack of the filter list. -/
def passwdArchive : List ZipFile := [ZipFile.plain "../../etc/passwd".toList "root".toList]

/-- An archive whose second entry points out of the destination and names a
pack of the filter list. -/
def escapingArchive : List ZipFile :=
  [ZipFile.plain "BreathOfTheWild/a.txt".toList "a".toList,
   ZipFile.plain "../../BreathOfTheWild/passwd".toList "root".toList,
   ZipFile.plain "MarioKart8/c.txt".toList "c".toList]

/-! ## Facts about the string routines -/

theorem hasPrefix_iff (s p : Str) : strings.HasPrefix s p = true ↔ p <+: s := by
  induction p generalizing s with
  | nil => simp [strings.HasPrefix]
  | cons c p ih =>
    cases s with
    | nil => simp [strings.HasPrefix]
    | cons x xs =>
      simp only [strings.HasPrefix, List.cons_prefix_cons]
      by_cases h : x = c
      · simp [h, ih]
      · simp [h]
        intro h'
        exact absurd h'.symm h

theorem contains_iff (s sub : Str) : strings.Contains s sub = true ↔ sub <:+: s := by
  induction s with
  | nil =>
    simp only [strings.Contains, hasPrefix_iff, List.infix_nil, List.prefix_nil]
  | cons x xs ih =>
    simp only [strings.Contains, Bool.or_eq_true, hasPrefix_iff, ih, List.infix_cons_iff]

theorem shouldUnzipLoop_eq_false (fpath : Str) (only : List Str) :
    shouldUnzipLoop fpath only = false ↔ ∃ v ∈ only, v <:+: fpath := by
  induction only with
  | nil => simp [shouldUnzipLoop]
  | cons v vs ih =>
    simp only [shouldUnzipLoop, List.mem_cons, exists_eq_or_imp]
    by_cases h : strings.Contains fpath v = true
    · simp [h, (contains_iff fpath v).1 h]
    · have h' : ¬ v <:+: fpath := fun hc => h ((contains_iff fpath v).2 hc)
      simp [h, h', ih]

theorem shouldUnzip_eq_false (only : List Str) (fpath : Str) :
    shouldUnzip only fpath = false ↔ ∃ v ∈ only, v <:+: fpath := by
  unfold shouldUnzip
  cases only with
  | nil => simp
  | cons v vs =>
    rw [if_neg (by simp)]
    exact shouldUnzipLoop_eq_false fpath (v :: vs)

/-- C4: `shouldUnzip` returns `true` exactly when the filter list is empty or
none of its strings occurs in the path, and `false` exactly when one of them
occurs in the path. -/
theorem shouldUnzip_true_iff (only : List Str) (p : Str) :
    (shouldUnzip only p = true ↔ only = [] ∨ ∀ v ∈ only, ¬ v <:+: p) ∧
    (shouldUnzip only p = false ↔ ∃ v ∈ only, v <:+: p) := by
  refine ⟨?_, shouldUnzip_eq_false only p⟩
  constructor
  · intro h
    right
    intro v hv hc
    have := (shouldUnzip_eq_false only p).2 ⟨v, hv, hc⟩
    rw [h] at this
    exact Bool.noConfusion this
  · intro h
    cases hb : shouldUnzip only p with
    | true => rfl
    | false =>
      obtain ⟨v, hv, hc⟩ := (shouldUnzip_eq_false only p).1 hb
      rcases h with h | h
      · subst h; simp at hv
      · exact absurd hc (h v hv)


/-! ## Facts about `filepath.Clean` -/

theorem elements_ne_nil (p : Str) : filepath.elements p ≠ [] := by
  cases p with
  | nil => simp [filepath.elements]
  | cons c cs =>
    rw [filepath.elements]
    split
    · simp
    · split <;> simp

theorem elements_cons_sep (s : Str) :
    filepath.elements (os.PathSeparator :: s) = [] :: filepath.elements s := by
  rw [filepath.elements, if_pos rfl]

theorem elements_cons_other (c : Char) (s : Str) (hc : c ≠ os.PathSeparator) :
    ∃ e es, filepath.elements s = e :: es ∧ filepath.elements (c :: s) = (c :: e) :: es := by
  rw [filepath.elements, if_neg hc]
  cases h : filepath.elements s with
  | nil => exact absurd h (elements_ne_nil s)
  | cons e es => exact ⟨e, es, rfl, rfl⟩

theorem elements_sepfree (p : Str) : ∀ e ∈ filepath.elements p, os.PathSeparator ∉ e := by
  induction p with
  | nil => simp [filepath.elements]
  | cons c cs ih =>
    by_cases hc : c = os.PathSeparator
    · subst hc
      rw [elements_cons_sep]
      intro e he
      rcases List.mem_cons.1 he with h | h
      · simp [h]
      · exact ih e h
    · obtain ⟨e0, es, h1, h2⟩ := elements_cons_other c cs hc
      rw [h2]
      rw [h1] at ih
      intro e he
      rcases List.mem_cons.1 he with h | h
      · rw [h]
        intro hmem
        rcases List.mem_cons.1 hmem with h3 | h3
        · exact hc h3.symm
        · exact ih e0 (by simp) h3
      · exact ih e (by simp [h])

theorem elements_append_sep (e s : Str) (he : os.PathSeparator ∉ e) :
    filepath.elements (e ++ os.PathSeparator :: s) = e :: filepath.elements s := by
  induction e with
  | nil => exact elements_cons_sep s
  | cons c cs ih =>
    have hc : c ≠ os.PathSeparator := fun h => he (by simp [h])
    have hcs : os.PathSeparator ∉ cs := fun h => he (by simp [h])
    obtain ⟨e0, es, h1, h2⟩ := elements_cons_other c (cs ++ os.PathSeparator :: s) hc
    rw [List.cons_append, h2]
    rw [ih hcs] at h1
    simp only [List.cons.injEq] at h1
    rw [← h1.1, ← h1.2]

theorem elements_of_sepfree (e : Str) (he : os.PathSeparator ∉ e) :
    filepath.elements e = [e] := by
  induction e with
  | nil => rfl
  | cons c cs ih =>
    have hc : c ≠ os.PathSeparator := fun h => he (by simp [h])
    have hcs : os.PathSeparator ∉ cs := fun h => he (by simp [h])
    obtain ⟨e0, es, h1, h2⟩ := elements_cons_other c cs hc
    rw [h2]
    rw [ih hcs] at h1
    simp only [List.cons.injEq] at h1
    rw [← h1.1, ← h1.2]

theorem elements_join (kept : List Str) (hne : kept ≠ [])
    (hk : ∀ e ∈ kept, os.PathSeparator ∉ e) :
    filepath.elements (filepath.joinElements kept) = kept := by
  induction kept with
  | nil => exact absurd rfl hne
  | cons e es ih =>
    cases es with
    | nil => exact elements_of_sepfree e (hk e (by simp))
    | cons e2 es2 =>
      show filepath.elements (e ++ os.PathSeparator :: filepath.joinElements (e2 :: es2)) = _
      rw [elements_append_sep _ _ (hk e (by simp)),
        ih (by simp) (fun x hx => hk x (by simp [hx]))]

theorem Kept.empty (rooted : Bool) : Kept rooted [] :=
  ⟨by simp, by simp, List.chain'_nil⟩

theorem Kept.below {rooted : Bool} {e : Str} {out : List Str} (h : Kept rooted (e :: out)) :
    Kept rooted out :=
  ⟨fun x hx => h.1 x (by simp [hx]), fun hr x hx => h.2.1 hr x (by simp [hx]), h.2.2.tail⟩

theorem cleanStep_kept (rooted : Bool) (out : List Str) (e : Str) (hk : Kept rooted out)
    (he : os.PathSeparator ∉ e) : Kept rooted (filepath.cleanStep rooted out e) := by
  unfold filepath.cleanStep
  split
  · exact hk
  · split
    · exact hk
    · rename_i hne hnd
      split
      · rename_i hdd
        cases out with
        | nil =>
          dsimp only
          split
          · exact Kept.empty _
          · rename_i hr
            refine ⟨?_, fun h => absurd h hr, List.chain'_singleton _⟩
            intro x hx
            rw [List.mem_singleton.1 hx]
            exact ⟨hne, hnd, he⟩
        | cons top below =>
          dsimp only
          split
          · rename_i htop
            refine ⟨?_, ?_, ?_⟩
            · intro x hx
              rcases List.mem_cons.1 hx with h | h
              · rw [h]; exact ⟨hne, hnd, he⟩
              · exact hk.1 x h
            · intro hr
              exact absurd htop (hk.2.1 hr top (by simp))
            · exact List.chain'_cons.2 ⟨fun _ => htop, hk.2.2⟩
          · exact hk.below
      · rename_i hdd
        refine ⟨?_, ?_, ?_⟩
        · intro x hx
          rcases List.mem_cons.1 hx with h | h
          · rw [h]; exact ⟨hne, hnd, he⟩
          · exact hk.1 x h
        · intro hr x hx
          rcases List.mem_cons.1 hx with h | h
          · rw [h]; exact hdd
          · exact hk.2.1 hr x h
        · cases out with
          | nil => exact List.chain'_singleton _
          | cons top below => exact List.chain'_cons.2 ⟨fun h => absurd h hdd, hk.2.2⟩

theorem foldl_cleanStep_kept (rooted : Bool) (es : List Str) (out : List Str)
    (hk : Kept rooted out) (hes : ∀ e ∈ es, os.PathSeparator ∉ e) :
    Kept rooted (es.foldl (filepath.cleanStep rooted) out) := by
  induction es generalizing out with
  | nil => exact hk
  | cons e es ih =>
    rw [List.foldl_cons]
    exact ih _ (cleanStep_kept rooted out e hk (hes e (by simp)))
      (fun x hx => hes x (by simp [hx]))

/-- Kept elements go through the scan of `Clean` unchanged. -/
theorem foldl_cleanStep_of_kept (rooted : Bool) (out : List Str) (hk : Kept rooted out) :
    out.reverse.foldl (filepath.cleanStep rooted) [] = out := by
  induction out with
  | nil => rfl
  | cons e below ih =>
    rw [List.reverse_cons, List.foldl_append, ih hk.below, List.foldl_cons, List.foldl_nil]
    obtain ⟨hne, hnd, _⟩ := hk.1 e (by simp)
    unfold filepath.cleanStep
    rw [if_neg hne, if_neg hnd]
    split
    · rename_i hdd
      cases below with
      | nil =>
        dsimp only
        have hr : rooted ≠ true := fun hr => hk.2.1 hr e (by simp) hdd
        rw [if_neg hr]
      | cons top rest =>
        dsimp only
        rw [if_pos ((List.chain'_cons.1 hk.2.2).1 hdd)]
    · rfl

theorem elements_foldl_kept (rooted : Bool) (p : Str) :
    Kept rooted ((filepath.elements p).foldl (filepath.cleanStep rooted) []) :=
  foldl_cleanStep_kept rooted _ [] (Kept.empty rooted) (elements_sepfree p)

theorem clean_eq_rendered (c : Char) (cs : Str) :
    filepath.Clean (c :: cs) = rendered (decide (c = os.PathSeparator))
      ((filepath.elements (c :: cs)).foldl
        (filepath.cleanStep (decide (c = os.PathSeparator))) []).reverse := by
  unfold filepath.Clean rendered
  rfl

theorem joinElements_cons_head (e : Str) (es : List Str) (c : Char) (t : Str)
    (he : e = c :: t) : ∃ t2, filepath.joinElements (e :: es) = c :: t2 := by
  cases es with
  | nil => exact ⟨t, he⟩
  | cons e2 es2 =>
    refine ⟨t ++ os.PathSeparator :: filepath.joinElements (e2 :: es2), ?_⟩
    show e ++ os.PathSeparator :: filepath.joinElements (e2 :: es2) = _
    rw [he]
    rfl

/-- What `Clean` writes for kept elements is left as it is by `Clean`. -/
theorem clean_rendered (rooted : Bool) (out : List Str) (hk : Kept rooted out) :
    filepath.Clean (rendered rooted out.reverse) = rendered rooted out.reverse := by
  have hsf : ∀ e ∈ out.reverse, os.PathSeparator ∉ e :=
    fun e he => (hk.1 e (List.mem_reverse.1 he)).2.2
  cases rooted with
  | true =>
    have hr : rendered true out.reverse =
        os.PathSeparator :: filepath.joinElements out.reverse := rfl
    rw [hr, clean_eq_rendered, elements_cons_sep]
    have hdec : decide (os.PathSeparator = os.PathSeparator) = true := by simp
    rw [hdec, List.foldl_cons]
    have hstep : filepath.cleanStep true [] [] = [] := rfl
    rw [hstep]
    by_cases hnil : out.reverse = []
    · rw [hnil]
      rfl
    · rw [elements_join _ hnil hsf, foldl_cleanStep_of_kept true out hk]
      rfl
  | false =>
    by_cases hnil : out.reverse = []
    · have hr : rendered false out.reverse = ['.'] := by
        unfold rendered
        simp [hnil]
      rw [hr]
      decide
    · have hr : rendered false out.reverse = filepath.joinElements out.reverse := by
        unfold rendered
        simp [hnil]
      rw [hr]
      -- the first element begins with a character that is no separator
      obtain ⟨e, es, hes⟩ := List.exists_cons_of_ne_nil hnil
      have hmem : e ∈ out := List.mem_reverse.1 (by rw [hes]; simp)
      obtain ⟨hne, _, hsep⟩ := hk.1 e hmem
      obtain ⟨c, t, hct⟩ := List.exists_cons_of_ne_nil hne
      have hc : c ≠ os.PathSeparator := fun h => hsep (by rw [hct, h]; simp)
      obtain ⟨t2, hj⟩ := joinElements_cons_head e es c t hct
      have hj2 : filepath.joinElements out.reverse = c :: t2 := by rw [hes]; exact hj
      have hdec : decide (c = os.PathSeparator) = false := by simp [hc]
      have hcl := clean_eq_rendered c t2
      rw [← hj2, hdec, elements_join _ hnil hsf, foldl_cleanStep_of_kept false out hk] at hcl
      rw [hcl]
      exact hr

/-- `Clean` is idempotent. -/
theorem clean_clean (p : Str) : filepath.Clean (filepath.Clean p) = filepath.Clean p := by
  cases p with
  | nil => decide
  | cons c cs =>
    rw [clean_eq_rendered]
    exact clean_rendered _ _ (elements_foldl_kept _ _)

theorem rendered_ne_nil (rooted : Bool) (out : List Str) (hk : Kept rooted out) :
    rendered rooted out.reverse ≠ [] := by
  unfold rendered
  split
  · simp
  · split
    · simp
    · rename_i hnil
      obtain ⟨e, es, hes⟩ := List.exists_cons_of_ne_nil hnil
      have hmem : e ∈ out := List.mem_reverse.1 (by rw [hes]; simp)
      obtain ⟨hne, _, _⟩ := hk.1 e hmem
      obtain ⟨c, t, hct⟩ := List.exists_cons_of_ne_nil hne
      obtain ⟨t2, hj⟩ := joinElements_cons_head e es c t hct
      rw [hes, hj]
      simp

theorem clean_ne_nil (p : Str) : filepath.Clean p ≠ [] := by
  cases p with
  | nil => decide
  | cons c cs =>
    rw [clean_eq_rendered]
    exact rendered_ne_nil _ _ (elements_foldl_kept _ _)

/-- A path `Join` returns is empty or left as it is by `Clean`. -/
theorem join_eq_nil_or_clean (a b : Str) :
    filepath.Join a b = [] ∨ filepath.Clean (filepath.Join a b) = filepath.Join a b := by
  unfold filepath.Join
  split
  · exact Or.inr (clean_clean _)
  · split
    · exact Or.inr (clean_clean _)
    · exact Or.inl rfl

/-- The escape check gives the same answer for the path `Join` returns and for
that path cleaned once more. -/
theorem hasPrefix_clean_join (a b dest : Str) :
    strings.HasPrefix (filepath.Clean (filepath.Join a b))
        (filepath.Clean dest ++ [os.PathSeparator]) =
      strings.HasPrefix (filepath.Join a b) (filepath.Clean dest ++ [os.PathSeparator]) := by
  rcases join_eq_nil_or_clean a b with h | h
  · rw [h]
    obtain ⟨c, t, hct⟩ := List.exists_cons_of_ne_nil (clean_ne_nil dest)
    rw [hct]
    have h1 : filepath.Clean [] = ['.'] := rfl
    rw [h1]
    cases t with
    | nil =>
      simp only [List.cons_append, List.nil_append, strings.HasPrefix]
      split <;> rfl
    | cons d t2 =>
      simp only [List.cons_append, strings.HasPrefix]
      split <;> rfl
  · rw [h]

/-! ## Facts about `filepath.Dir` -/

theorem elements_append_sep_any (x s : Str) :
    filepath.elements (x ++ os.PathSeparator :: s) =
      filepath.elements x ++ filepath.elements s := by
  induction x with
  | nil =>
    rw [List.nil_append, elements_cons_sep]
    rfl
  | cons c cs ih =>
    by_cases hc : c = os.PathSeparator
    · subst hc
      rw [List.cons_append, elements_cons_sep, elements_cons_sep, ih]
      rfl
    · obtain ⟨e1, es1, h1, h2⟩ := elements_cons_other c (cs ++ os.PathSeparator :: s) hc
      obtain ⟨e2, es2, h3, h4⟩ := elements_cons_other c cs hc
      rw [List.cons_append, h2, h4]
      rw [ih, h3] at h1
      simp only [List.cons_append, List.cons.injEq] at h1
      rw [← h1.1, ← h1.2]
      rfl

theorem cleanStep_empty (rooted : Bool) (out : List Str) :
    filepath.cleanStep rooted out [] = out := by
  unfold filepath.cleanStep
  rw [if_pos rfl]

/-- A separator at the end of a path that is not empty does not change what
`Clean` returns. -/
theorem clean_append_sep (a : Str) (ha : a ≠ []) :
    filepath.Clean (a ++ [os.PathSeparator]) = filepath.Clean a := by
  obtain ⟨c, t, rfl⟩ := List.exists_cons_of_ne_nil ha
  rw [List.cons_append, clean_eq_rendered, clean_eq_rendered, ← List.cons_append,
    elements_append_sep_any, List.foldl_append]
  have : filepath.elements [] = [[]] := rfl
  rw [this, List.foldl_cons, List.foldl_nil, cleanStep_empty]

theorem dropWhile_append_stop (p : Char → Bool) (l r : Str) (y : Char)
    (hl : ∀ x ∈ l, p x = true) (hy : p y = false) :
    (l ++ y :: r).dropWhile p = y :: r := by
  induction l with
  | nil => simp [List.dropWhile, hy]
  | cons x xs ih =>
    rw [List.cons_append, List.dropWhile_cons, if_pos (hl x (by simp))]
    exact ih (fun z hz => hl z (by simp [hz]))

/-- `Dir` of a path cut at its last separator. -/
theorem dir_append_sep (a b : Str) (hb : os.PathSeparator ∉ b) :
    filepath.Dir (a ++ os.PathSeparator :: b) = filepath.Clean (a ++ [os.PathSeparator]) := by
  unfold filepath.Dir
  have hrev : (a ++ os.PathSeparator :: b).reverse =
      b.reverse ++ os.PathSeparator :: a.reverse := by simp
  rw [hrev, dropWhile_append_stop _ _ _ _ (fun x hx => ?_) (by simp)]
  · simp
  · have hx2 : x ∈ b := List.mem_reverse.1 hx
    have : x ≠ os.PathSeparator := fun h => hb (h ▸ hx2)
    simp [this]

theorem joinElements_append_last (init : List Str) (last : Str) (hne : init ≠ []) :
    filepath.joinElements (init ++ [last]) =
      filepath.joinElements init ++ os.PathSeparator :: last := by
  induction init with
  | nil => exact absurd rfl hne
  | cons e es ih =>
    cases es with
    | nil => rfl
    | cons e2 es2 =>
      show e ++ os.PathSeparator :: filepath.joinElements ((e2 :: es2) ++ [last]) =
        (e ++ os.PathSeparator :: filepath.joinElements (e2 :: es2)) ++
          os.PathSeparator :: last
      rw [ih (by simp), List.append_assoc]
      rfl

/-- A cleaned path with a separator in it, other than at its start alone, is a
cleaned path, a separator and a last element. -/
theorem rendered_split (rooted : Bool) (top : Str) (below : List Str) (hne : below ≠ []) :
    rendered rooted (top :: below).reverse =
      rendered rooted below.reverse ++ os.PathSeparator :: top := by
  have hrev : below.reverse ≠ [] := by simpa using hne
  unfold rendered
  rw [List.reverse_cons, joinElements_append_last _ _ hrev]
  cases rooted with
  | true => rfl
  | false =>
    simp only [Bool.false_eq_true, if_false]
    rw [if_neg (by simp), if_neg hrev]

/-- The directory of a target path below the root is the root or lies below
the root. -/
theorem dir_of_join_below (dest name : Str)
    (h : strings.HasPrefix (filepath.Join dest name)
      (filepath.Clean dest ++ [os.PathSeparator]) = true) :
    filepath.Dir (filepath.Join dest name) = filepath.Clean dest ∨
    strings.HasPrefix (filepath.Dir (filepath.Join dest name))
      (filepath.Clean dest ++ [os.PathSeparator]) = true := by
  obtain ⟨rest, hrest⟩ := (hasPrefix_iff _ _).1 h
  rw [List.append_assoc, List.singleton_append] at hrest
  have hRne := clean_ne_nil dest
  generalize filepath.Clean dest = R at *
  -- the target path is a cleaned path
  have hclean : filepath.Clean (filepath.Join dest name) = filepath.Join dest name := by
    rcases join_eq_nil_or_clean dest name with h0 | h0
    · rw [h0] at hrest
      simp at hrest
    · exact h0
  generalize filepath.Join dest name = t at *
  obtain ⟨c, cs, rfl⟩ : ∃ c cs, t = c :: cs := by
    cases t with
    | nil => simp at hrest
    | cons c cs => exact ⟨c, cs, rfl⟩
  have hk := elements_foldl_kept (decide (c = os.PathSeparator)) (c :: cs)
  rw [clean_eq_rendered] at hclean
  generalize (filepath.elements (c :: cs)).foldl
    (filepath.cleanStep (decide (c = os.PathSeparator))) [] = K at *
  generalize decide (c = os.PathSeparator) = rooted at *
  cases K with
  | nil =>
    exfalso
    have hlen : (R ++ os.PathSeparator :: rest).length = (c :: cs).length := by rw [hrest]
    have hlen2 : (rendered rooted ([] : List Str).reverse).length = (c :: cs).length := by
      rw [hclean]
    obtain ⟨r0, R2, rfl⟩ := List.exists_cons_of_ne_nil hRne
    have h1 : (rendered rooted ([] : List Str).reverse).length = 1 := by
      cases rooted <;> rfl
    rw [h1] at hlen2
    simp only [List.length_append, List.length_cons] at hlen hlen2
    omega
  | cons top below =>
    have htop : os.PathSeparator ∉ top := (hk.1 top (by simp)).2.2
    by_cases hb : below = []
    · exfalso
      subst hb
      cases rooted with
      | false =>
        have : rendered false [top].reverse = top := by
          simp [rendered, filepath.joinElements]
        rw [this] at hclean
        rw [← hclean] at hrest
        exact htop (by rw [← hrest]; simp)
      | true =>
        have : rendered true [top].reverse = os.PathSeparator :: top := by
          simp [rendered, filepath.joinElements]
        rw [this] at hclean
        rw [← hclean] at hrest
        obtain ⟨r0, R2, rfl⟩ := List.exists_cons_of_ne_nil hRne
        simp only [List.cons_append, List.cons.injEq] at hrest
        exact htop (by rw [← hrest.2]; simp)
    · rw [rendered_split rooted top below hb] at hclean
      have hP := clean_rendered rooted below hk.below
      have hPne := rendered_ne_nil rooted below hk.below
      generalize rendered rooted below.reverse = P at *
      rw [← hclean, dir_append_sep P top htop, clean_append_sep P hPne, hP]
      rw [← hclean] at hrest
      rcases List.append_eq_append_iff.1 hrest with ⟨a, ha, hb2⟩ | ⟨a, ha, hb2⟩
      · -- P = R ++ a
        cases a with
        | nil =>
          left
          rw [ha, List.append_nil]
        | cons y a2 =>
          right
          simp only [List.cons_append, List.cons.injEq] at hb2
          rw [ha, ← hb2.1]
          exact (hasPrefix_iff _ _).2 ⟨a2, by simp⟩
      · -- R = P ++ a
        cases a with
        | nil =>
          left
          rw [ha, List.append_nil]
        | cons y a2 =>
          exfalso
          simp only [List.cons_append, List.cons.injEq] at hb2
          exact htop (by rw [hb2.2]; simp)

/-! ## Facts about the file system routines -/

theorem Grows.refl (P : FsEvent → Prop) (w : World) : Grows P w w :=
  ⟨[], by simp, by simp, rfl⟩

theorem Grows.trans {P : FsEvent → Prop} {w1 w2 w3 : World}
    (h12 : Grows P w1 w2) (h23 : Grows P w2 w3) : Grows P w1 w3 := by
  obtain ⟨a, ha, hPa, hr1⟩ := h12
  obtain ⟨b, hb, hPb, hr2⟩ := h23
  refine ⟨a ++ b, by rw [hb, ha, List.append_assoc], ?_, hr2.trans hr1⟩
  intro ev hev
  rcases List.mem_append.1 hev with h | h
  · exact hPa ev h
  · exact hPb ev h

theorem Grows.mono {P Q : FsEvent → Prop} {w1 w2 : World} (hPQ : ∀ ev, P ev → Q ev)
    (h : Grows P w1 w2) : Grows Q w1 w2 := by
  obtain ⟨a, ha, hPa, hr⟩ := h
  exact ⟨a, ha, fun ev hev => hPQ ev (hPa ev hev), hr⟩

theorem println_grows (P : FsEvent → Prop) (w : World) (v : List Str) :
    Grows P w (fmt.Println w v) :=
  ⟨[], by simp [fmt.Println], by simp, rfl⟩

theorem mkdirAll_grows (env : Env) (w : World) (path : Str) (perm : Nat) :
    Grows (fun ev => ev = FsEvent.mkdirAll path perm) w (os.MkdirAll env w path perm).2 := by
  unfold os.MkdirAll
  split
  · exact Grows.refl _ _
  · exact ⟨[FsEvent.mkdirAll path perm], rfl, by simp, rfl⟩

theorem openFile_grows (env : Env) (w : World) (path : Str) (flag perm : Nat) :
    Grows (fun ev => ev.path = path) w (os.OpenFile env w path flag perm).2 := by
  unfold os.OpenFile
  split
  · exact Grows.refl _ _
  · split
    · split
      · exact ⟨[FsEvent.create path perm], rfl, by simp [FsEvent.path], rfl⟩
      · exact Grows.refl _ _
    · dsimp only
      split
      · exact ⟨[FsEvent.truncate path], rfl, by simp [FsEvent.path], rfl⟩
      · exact Grows.refl _ _

theorem openFile_name (env : Env) (w : World) (path : Str) (flag perm : Nat) (file : os.File)
    (w2 : World) (h : os.OpenFile env w path flag perm = (Except.ok file, w2)) :
    file.name = path := by
  unfold os.OpenFile at h
  split at h
  · simp at h
  · split at h
    · split at h
      · simp only [Prod.mk.injEq, Except.ok.injEq] at h
        rw [← h.1]
      · simp at h
    · dsimp only at h
      split at h <;>
      · simp only [Prod.mk.injEq, Except.ok.injEq] at h
        rw [← h.1]

theorem write_grows (env : Env) (w : World) (f : os.File) (data : Str) :
    Grows (fun ev => ev.path = f.name) w (os.write env w f data).2 := by
  unfold os.write
  split
  · exact Grows.refl _ _
  · split
    · exact Grows.refl _ _
    · exact ⟨[FsEvent.write f.name data], rfl, by simp [FsEvent.path], rfl⟩

theorem ioCopy_grows (env : Env) (w : World) (dst : os.File) (data : Str) (readErr : Option Str) :
    Grows (fun ev => ev.path = dst.name) w (ioCopy env w dst data readErr).2 := by
  unfold ioCopy
  split
  · exact Grows.refl _ _
  · have h := write_grows env w dst data
    split
    · rename_i e w2 heq
      rw [heq] at h
      exact h
    · rename_i w2 heq
      rw [heq] at h
      exact h

/-! ## The loop body of `unzip`, case by case -/

theorem unzipEntry_openErr (env : Env) (only : List Str) (dest : Str) (f : ZipFile)
    (fn : List Str) (w : World) (e : Str) (h : f.openErr = some e) :
    unzipEntry env only dest f fn w = LoopStep.ret ⟨fn, some e, w⟩ := by
  unfold unzipEntry
  rw [h]

theorem unzipEntry_skip (env : Env) (only : List Str) (dest : Str) (f : ZipFile)
    (fn : List Str) (w : World) (h : f.openErr = none)
    (hs : shouldUnzip only (target dest f) = true) :
    unzipEntry env only dest f fn w = LoopStep.next fn w := by
  unfold unzipEntry
  rw [h]
  unfold target at hs
  simp [hs]

theorem unzipEntry_escape (env : Env) (only : List Str) (dest : Str) (f : ZipFile)
    (fn : List Str) (w : World) (h : f.openErr = none)
    (hs : shouldUnzip only (target dest f) = false)
    (hp : strings.HasPrefix (target dest f) (rootSlash dest) = false) :
    unzipEntry env only dest f fn w =
      LoopStep.ret ⟨fn, some (target dest f ++ ": illegal file path".toList), w⟩ := by
  unfold unzipEntry
  rw [h]
  unfold target rootSlash at *
  simp [hs, hp]

theorem unzipEntry_extract (env : Env) (only : List Str) (dest : Str) (f : ZipFile)
    (fn : List Str) (w : World) (h : f.openErr = none)
    (hs : shouldUnzip only (target dest f) = false)
    (hp : strings.HasPrefix (target dest f) (rootSlash dest) = true) :
    ∃ w2, Grows (entryEvent (target dest f)) w w2 ∧
      (unzipEntry env only dest f fn w = LoopStep.next (fn ++ [target dest f]) w2 ∨
        ∃ e, unzipEntry env only dest f fn w =
          LoopStep.ret ⟨fn ++ [target dest f], some e, w2⟩) := by
  unfold unzipEntry
  rw [h]
  unfold target rootSlash at *
  simp only [hs, hp, Bool.false_eq_true, if_false, Bool.not_true]
  by_cases hd : f.isDir = true
  · simp only [hd, if_true]
    refine ⟨_, ?_, Or.inl rfl⟩
    refine Grows.trans
      (println_grows _ w ["extracting".toList, filepath.Join dest f.Name]) ?_
    exact Grows.mono (fun ev hev => Or.inl (by rw [hev]; rfl)) (mkdirAll_grows env _ _ _)
  · simp only [hd, Bool.false_eq_true, if_false]
    have hm := mkdirAll_grows env w (filepath.Dir (filepath.Join dest f.Name)) os.ModePerm
    have hm2 : Grows (entryEvent (filepath.Join dest f.Name)) w
        (os.MkdirAll env w (filepath.Dir (filepath.Join dest f.Name)) os.ModePerm).2 :=
      Grows.mono (fun ev hev => Or.inr hev) hm
    rcases hmk : os.MkdirAll env w (filepath.Dir (filepath.Join dest f.Name)) os.ModePerm
      with ⟨me, w1⟩
    rw [hmk] at hm2
    cases me with
    | some e => exact ⟨w1, hm2, Or.inr ⟨e, rfl⟩⟩
    | none =>
      dsimp only
      have ho := openFile_grows env w1 (filepath.Join dest f.Name)
        (os.O_WRONLY ||| os.O_CREATE ||| os.O_TRUNC) f.mode
      rcases hop : os.OpenFile env w1 (filepath.Join dest f.Name)
        (os.O_WRONLY ||| os.O_CREATE ||| os.O_TRUNC) f.mode with ⟨oe, w2⟩
      rw [hop] at ho
      have ho2 : Grows (entryEvent (filepath.Join dest f.Name)) w w2 :=
        Grows.trans hm2 (Grows.mono (fun ev hev => Or.inl hev) ho)
      cases oe with
      | error e => exact ⟨w2, ho2, Or.inr ⟨e, rfl⟩⟩
      | ok outFile =>
        dsimp only
        have hname := openFile_name env w1 _ _ _ outFile w2 hop
        have hc := ioCopy_grows env w2 outFile f.content f.readErr
        rw [hname] at hc
        rcases hcp : ioCopy env w2 outFile f.content f.readErr with ⟨⟨n, ce⟩, w3⟩
        rw [hcp] at hc
        have hc2 : Grows (entryEvent (filepath.Join dest f.Name)) w w3 :=
          Grows.trans ho2 (Grows.mono (fun ev hev => Or.inl hev) hc)
        cases ce with
        | some e => exact ⟨w3, hc2, Or.inr ⟨e, rfl⟩⟩
        | none => exact ⟨w3, hc2, Or.inl rfl⟩

theorem unzipEntry_ret_err (env : Env) (only : List Str) (dest : Str) (f : ZipFile)
    (fn : List Str) (w : World) (r : Unzipped)
    (h : unzipEntry env only dest f fn w = LoopStep.ret r) : r.err ≠ none := by
  cases ho : f.openErr with
  | some e =>
    rw [unzipEntry_openErr env only dest f fn w e ho] at h
    cases h
    simp
  | none =>
    cases hs : shouldUnzip only (target dest f) with
    | true =>
      rw [unzipEntry_skip env only dest f fn w ho hs] at h
      cases h
    | false =>
      cases hp : strings.HasPrefix (target dest f) (rootSlash dest) with
      | false =>
        rw [unzipEntry_escape env only dest f fn w ho hs hp] at h
        cases h
        simp
      | true =>
        obtain ⟨w2, _, hstep | ⟨e, hstep⟩⟩ := unzipEntry_extract env only dest f fn w ho hs hp
        · rw [hstep] at h
          cases h
        · rw [hstep] at h
          cases h
          simp

/-! ## The loop of `unzip` -/

theorem unzipLoop_cons_ret (env : Env) (only : List Str) (dest : Str) (f : ZipFile)
    (rest : List ZipFile) (fn : List Str) (w : World) (r : Unzipped)
    (h : unzipEntry env only dest f fn w = LoopStep.ret r) :
    unzipLoop env only dest (f :: rest) fn w = r := by
  rw [unzipLoop, h]

theorem unzipLoop_cons_next (env : Env) (only : List Str) (dest : Str) (f : ZipFile)
    (rest : List ZipFile) (fn : List Str) (w : World) (fn2 : List Str) (w2 : World)
    (h : unzipEntry env only dest f fn w = LoopStep.next fn2 w2) :
    unzipLoop env only dest (f :: rest) fn w = unzipLoop env only dest rest fn2 w2 := by
  rw [unzipLoop, h]

/-- Extraction of `xs ++ ys` is extraction of `xs`, followed by extraction of
`ys` when that of `xs` came to its end without error. -/
theorem unzipLoop_append (env : Env) (only : List Str) (dest : Str) (xs ys : List ZipFile)
    (fn : List Str) (w : World) :
    unzipLoop env only dest (xs ++ ys) fn w =
      if (unzipLoop env only dest xs fn w).err = none then
        unzipLoop env only dest ys (unzipLoop env only dest xs fn w).filenames
          (unzipLoop env only dest xs fn w).world
      else unzipLoop env only dest xs fn w := by
  induction xs generalizing fn w with
  | nil => simp [unzipLoop]
  | cons f rest ih =>
    cases hstep : unzipEntry env only dest f fn w with
    | ret r =>
      have hr := unzipEntry_ret_err env only dest f fn w r hstep
      rw [List.cons_append, unzipLoop_cons_ret env only dest f _ fn w r hstep,
        unzipLoop_cons_ret env only dest f _ fn w r hstep, if_neg hr]
    | next fn2 w2 =>
      rw [List.cons_append, unzipLoop_cons_next env only dest f _ fn w fn2 w2 hstep,
        unzipLoop_cons_next env only dest f _ fn w fn2 w2 hstep]
      exact ih fn2 w2

/-- What the loop of `unzip` does with an archive: it deals with the first `n`
entries and with no other. -/
theorem unzipLoop_spec (env : Env) (only : List Str) (dest : Str) (files : List ZipFile)
    (fn : List Str) (w : World) :
    ∃ n, n ≤ files.length ∧
      (unzipLoop env only dest files fn w).filenames =
        fn ++ ((files.take n).filter (passes only dest)).map (target dest) ∧
      unzipLoop env only dest files fn w = unzipLoop env only dest (files.take n) fn w ∧
      Grows (fun ev => ∃ f ∈ files.take n, passes only dest f = true ∧
        entryEvent (target dest f) ev) w (unzipLoop env only dest files fn w).world ∧
      ((unzipLoop env only dest files fn w).err = none → n = files.length) ∧
      ((unzipLoop env only dest files fn w).err ≠ none →
        0 < n ∧ (unzipLoop env only dest (files.take (n - 1)) fn w).err = none) := by
  induction files generalizing fn w with
  | nil =>
    exact ⟨0, le_refl _, by simp [unzipLoop], rfl, Grows.refl _ _, fun _ => rfl,
      fun h => absurd rfl h⟩
  | cons f rest ih =>
    -- the entry ends the loop with `r`
    have stop : ∀ r : Unzipped, unzipEntry env only dest f fn w = LoopStep.ret r →
        r.filenames = fn ++ (([f]).filter (passes only dest)).map (target dest) →
        Grows (fun ev => ∃ g ∈ [f], passes only dest g = true ∧
          entryEvent (target dest g) ev) w r.world →
        ∃ n, n ≤ (f :: rest).length ∧
          (unzipLoop env only dest (f :: rest) fn w).filenames =
            fn ++ (((f :: rest).take n).filter (passes only dest)).map (target dest) ∧
          unzipLoop env only dest (f :: rest) fn w =
            unzipLoop env only dest ((f :: rest).take n) fn w ∧
          Grows (fun ev => ∃ g ∈ (f :: rest).take n, passes only dest g = true ∧
            entryEvent (target dest g) ev) w (unzipLoop env only dest (f :: rest) fn w).world ∧
          ((unzipLoop env only dest (f :: rest) fn w).err = none → n = (f :: rest).length) ∧
          ((unzipLoop env only dest (f :: rest) fn w).err ≠ none →
            0 < n ∧ (unzipLoop env only dest ((f :: rest).take (n - 1)) fn w).err = none) := by
      intro r hstep hfn hg
      have hr := unzipEntry_ret_err env only dest f fn w r hstep
      rw [unzipLoop_cons_ret env only dest f rest fn w r hstep]
      refine ⟨1, by simp, ?_, ?_, ?_, fun h => absurd h hr, fun _ => ⟨by decide, ?_⟩⟩
      · simpa using hfn
      · simp only [List.take_succ_cons, List.take_zero]
        rw [unzipLoop_cons_ret env only dest f [] fn w r hstep]
      · simpa using hg
      · simp [unzipLoop]
    -- the entry hands over to the rest of the archive
    have go : ∀ (fn2 : List Str) (w2 : World),
        unzipEntry env only dest f fn w = LoopStep.next fn2 w2 →
        fn2 = fn ++ (([f]).filter (passes only dest)).map (target dest) →
        Grows (fun ev => ∃ g ∈ [f], passes only dest g = true ∧
          entryEvent (target dest g) ev) w w2 →
        ∃ n, n ≤ (f :: rest).length ∧
          (unzipLoop env only dest (f :: rest) fn w).filenames =
            fn ++ (((f :: rest).take n).filter (passes only dest)).map (target dest) ∧
          unzipLoop env only dest (f :: rest) fn w =
            unzipLoop env only dest ((f :: rest).take n) fn w ∧
          Grows (fun ev => ∃ g ∈ (f :: rest).take n, passes only dest g = true ∧
            entryEvent (target dest g) ev) w (unzipLoop env only dest (f :: rest) fn w).world ∧
          ((unzipLoop env only dest (f :: rest) fn w).err = none → n = (f :: rest).length) ∧
          ((unzipLoop env only dest (f :: rest) fn w).err ≠ none →
            0 < n ∧ (unzipLoop env only dest ((f :: rest).take (n - 1)) fn w).err = none) := by
      intro fn2 w2 hstep hfn hg
      obtain ⟨n, hn, h1, h2, h3, h4, h5⟩ := ih fn2 w2
      rw [unzipLoop_cons_next env only dest f rest fn w fn2 w2 hstep]
      refine ⟨n + 1, by simpa using hn, ?_, ?_, ?_, ?_, ?_⟩
      · rw [h1, hfn, List.take_succ_cons]
        by_cases hp : passes only dest f = true
        · simp [List.filter_cons, hp]
        · simp [List.filter_cons, hp]
      · rw [List.take_succ_cons, unzipLoop_cons_next env only dest f _ fn w fn2 w2 hstep]
        exact h2
      · refine Grows.trans (Grows.mono ?_ hg) (Grows.mono ?_ h3)
        · rintro ev ⟨g, hg1, hg2⟩
          exact ⟨g, by simp at hg1; simp [hg1], hg2⟩
        · rintro ev ⟨g, hg1, hg2⟩
          exact ⟨g, by simp [hg1], hg2⟩
      · intro h
        simp [h4 h]
      · intro h
        obtain ⟨hpos, hprev⟩ := h5 h
        refine ⟨Nat.succ_pos n, ?_⟩
        obtain ⟨m, rfl⟩ : ∃ m, n = m + 1 := ⟨n - 1, by omega⟩
        simp only [Nat.add_sub_cancel] at hprev ⊢
        rw [List.take_succ_cons, unzipLoop_cons_next env only dest f _ fn w fn2 w2 hstep]
        exact hprev
    cases ho : f.openErr with
    | some e =>
      refine stop _ (unzipEntry_openErr env only dest f fn w e ho) ?_ (Grows.refl _ _)
      simp [List.filter_cons, passes, ho]
    | none =>
      cases hs : shouldUnzip only (target dest f) with
      | true =>
        refine go _ _ (unzipEntry_skip env only dest f fn w ho hs) ?_ (Grows.refl _ _)
        simp [List.filter_cons, passes, hs]
      | false =>
        cases hp : strings.HasPrefix (target dest f) (rootSlash dest) with
        | false =>
          refine stop _ (unzipEntry_escape env only dest f fn w ho hs hp) ?_ (Grows.refl _ _)
          simp [List.filter_cons, passes, hp]
        | true =>
          have hpass : passes only dest f = true := by simp [passes, ho, hs, hp]
          obtain ⟨w2, hg, hstep | ⟨e, hstep⟩⟩ :=
            unzipEntry_extract env only dest f fn w ho hs hp
          · refine go _ _ hstep ?_ (Grows.mono ?_ hg)
            · simp [List.filter_cons, hpass]
            · intro ev hev
              exact ⟨f, by simp, hpass, hev⟩
          · refine stop _ hstep ?_ (Grows.mono ?_ hg)
            · simp [List.filter_cons, hpass]
            · intro ev hev
              exact ⟨f, by simp, hpass, hev⟩

/-! ## The backtracking search against the pattern's language -/

theorem NoNL.nil : NoNL [] := by
  intro x hx
  simp at hx

theorem NoNL.cons {x : Char} {u : Str} (hx : x ≠ '\n') (hu : NoNL u) : NoNL (x :: u) := by
  intro y hy
  rcases List.mem_cons.1 hy with h | h
  · rw [h]; exact hx
  · exact hu y h

theorem NoNL.head {x : Char} {u : Str} (h : NoNL (x :: u)) : x ≠ '\n' :=
  h x (by simp)

theorem NoNL.tail {x : Char} {u : Str} (h : NoNL (x :: u)) : NoNL u :=
  fun y hy => h y (by simp [hy])

theorem NoNL.append {u v : Str} (hu : NoNL u) (hv : NoNL v) : NoNL (u ++ v) := by
  intro y hy
  rcases List.mem_append.1 hy with h | h
  · exact hu y h
  · exact hv y h

theorem NoNL.left {u v : Str} (h : NoNL (u ++ v)) : NoNL u :=
  fun y hy => h y (by simp [hy])

theorem NoNL.right {u v : Str} (h : NoNL (u ++ v)) : NoNL v :=
  fun y hy => h y (by simp [hy])

/-- When the greedy star fails, the continuation fails after every run the
star could take. -/
theorem star_none (k : Str → Option Nat) (s : Str) (h : regexp.star k s = none) :
    ∀ u r, s = u ++ r → NoNL u → k r = none := by
  induction s with
  | nil =>
    intro u r hs _
    obtain ⟨rfl, rfl⟩ := List.append_eq_nil.1 hs.symm
    simpa [regexp.star] using h
  | cons x xs ih =>
    intro u r hs hu
    rw [regexp.star] at h
    cases u with
    | nil =>
      simp only [List.nil_append] at hs
      subst hs
      split at h
      · exact h
      · split at h
        · cases h
        · exact h
    | cons y u2 =>
      simp only [List.cons_append, List.cons.injEq] at hs
      obtain ⟨rfl, hxs⟩ := hs
      rw [if_neg hu.head] at h
      split at h
      · cases h
      · rename_i hstar
        exact ih hstar u2 r hxs hu.tail

/-- When the greedy star succeeds, it took the longest run after which the
continuation succeeds. -/
theorem star_some (k : Str → Option Nat) (s : Str) (n : Nat) (h : regexp.star k s = some n) :
    ∃ u r m, s = u ++ r ∧ NoNL u ∧ k r = some m ∧ n = u.length + m ∧
      ∀ u2 r2, s = u2 ++ r2 → NoNL u2 → u.length < u2.length → k r2 = none := by
  induction s generalizing n with
  | nil =>
    refine ⟨[], [], n, rfl, NoNL.nil, by simpa [regexp.star] using h, by simp, ?_⟩
    intro u2 r2 hs _ hlen
    obtain ⟨rfl, rfl⟩ := List.append_eq_nil.1 hs.symm
    simp at hlen
  | cons x xs ih =>
    rw [regexp.star] at h
    -- the star takes nothing here
    have none_taken : k (x :: xs) = some n →
        (∀ u2 r2, xs = u2 ++ r2 → x ≠ '\n' → NoNL u2 → k r2 = none) →
        ∃ u r m, x :: xs = u ++ r ∧ NoNL u ∧ k r = some m ∧ n = u.length + m ∧
          ∀ u2 r2, x :: xs = u2 ++ r2 → NoNL u2 → u.length < u2.length → k r2 = none := by
      intro hk hrest
      refine ⟨[], x :: xs, n, rfl, NoNL.nil, hk, by simp, ?_⟩
      intro u2 r2 hs hu2 hlen
      cases u2 with
      | nil => simp at hlen
      | cons y u3 =>
        simp only [List.cons_append, List.cons.injEq] at hs
        obtain ⟨rfl, hxs⟩ := hs
        exact hrest u3 r2 hxs hu2.head hu2.tail
    split at h
    · rename_i hx
      exact none_taken h (fun _ _ _ hne => absurd hx hne)
    · rename_i hx
      split at h
      · rename_i n2 hstar
        obtain ⟨u, r, m, hs, hu, hk, hn, hmax⟩ := ih n2 hstar
        simp only [Option.some.injEq] at h
        refine ⟨x :: u, r, m, by rw [hs]; rfl, NoNL.cons hx hu, hk, by simp; omega, ?_⟩
        intro u2 r2 hs2 hu2 hlen
        cases u2 with
        | nil => simp at hlen
        | cons y u3 =>
          simp only [List.cons_append, List.cons.injEq] at hs2
          exact hmax u3 r2 hs2.2 hu2.tail (by simpa using hlen)
      · rename_i hstar
        exact none_taken h (fun u2 r2 hxs _ hu2 => star_none k xs hstar u2 r2 hxs hu2)

/-- What the search finds at the start of a text is matched by the pattern. -/
theorem run_sound (ps : List regexp.Node) (s : Str) (n : Nat) (h : regexp.run ps s = some n) :
    ∃ w t, s = w ++ t ∧ w.length = n ∧ Matches ps w := by
  induction ps generalizing s n with
  | nil =>
    simp only [regexp.run, Option.some.injEq] at h
    exact ⟨[], s, rfl, by simpa using h, rfl⟩
  | cons p ps ih =>
    cases p with
    | lit c =>
      cases s with
      | nil => simp [regexp.run] at h
      | cons x xs =>
        simp only [regexp.run] at h
        split at h
        · rename_i hx
          cases hr : regexp.run ps xs with
          | none => simp [hr] at h
          | some m =>
            obtain ⟨w, t, hs, hlen, hm⟩ := ih xs m hr
            simp only [hr, Option.map_some', Option.some.injEq] at h
            exact ⟨x :: w, t, by rw [hs]; rfl, by simp [hlen, h], w, by rw [hx], hm⟩
        · cases h
    | anyNotNL =>
      cases s with
      | nil => simp [regexp.run] at h
      | cons x xs =>
        simp only [regexp.run] at h
        split at h
        · cases h
        · rename_i hx
          cases hr : regexp.run ps xs with
          | none => simp [hr] at h
          | some m =>
            obtain ⟨w, t, hs, hlen, hm⟩ := ih xs m hr
            simp only [hr, Option.map_some', Option.some.injEq] at h
            exact ⟨x :: w, t, by rw [hs]; rfl, by simp [hlen, h], x, w, hx, rfl, hm⟩
    | starAnyNotNL =>
      simp only [regexp.run] at h
      obtain ⟨u, r, m, hs, hu, hk, hn, _⟩ := star_some _ s n h
      obtain ⟨w, t, hr, hlen, hm⟩ := ih r m hk
      exact ⟨u ++ w, t, by rw [hs, hr, List.append_assoc], by simp [hlen, hn], u, w, hu, rfl, hm⟩

/-- The search finds a match at the start of a text that begins with one. -/
theorem run_complete (ps : List regexp.Node) (w : Str) (hm : Matches ps w) (t : Str) :
    regexp.run ps (w ++ t) ≠ none := by
  induction ps generalizing w with
  | nil => simp [regexp.run]
  | cons p ps ih =>
    cases p with
    | lit c =>
      obtain ⟨w2, rfl, hm2⟩ := hm
      have := ih w2 hm2
      simp only [regexp.run, List.cons_append, if_true]
      cases hr : regexp.run ps (w2 ++ t) with
      | none => exact absurd hr this
      | some m => simp
    | anyNotNL =>
      obtain ⟨x, w2, hx, rfl, hm2⟩ := hm
      have := ih w2 hm2
      simp only [regexp.run, List.cons_append, if_neg hx]
      cases hr : regexp.run ps (w2 ++ t) with
      | none => exact absurd hr this
      | some m => simp
    | starAnyNotNL =>
      obtain ⟨u, w2, hu, rfl, hm2⟩ := hm
      have := ih w2 hm2
      simp only [regexp.run]
      intro hnone
      exact this (star_none _ _ hnone u (w2 ++ t) (by rw [List.append_assoc]) hu)

/-- A match that starts earlier in the text does not end later than what the
search finds from a later start: the search's choice is the longest match. -/
theorem run_longest (ps : List regexp.Node) (w t v s2 : Str) (n : Nat)
    (hm : Matches ps w) (heq : w ++ t = v ++ s2) (hrun : regexp.run ps s2 = some n) :
    w.length ≤ v.length + n := by
  induction ps generalizing w t v s2 n with
  | nil =>
    rw [show w = [] from hm]
    simp
  | cons p ps ih =>
    -- one character of the pattern against one character of the text
    have single : ∀ (c : Char) (w2 xs : Str) (m : Nat), Matches ps w2 →
        (c :: w2) ++ t = v ++ c :: xs → regexp.run ps xs = some m →
        (c :: w2).length ≤ v.length + (m + 1) := by
      intro c w2 xs m hm2 heq2 hr
      cases v with
      | nil =>
        simp only [List.cons_append, List.nil_append, List.cons.injEq, true_and] at heq2
        have := ih w2 t [] xs m hm2 (by simpa using heq2) hr
        simp at this ⊢
        omega
      | cons y v2 =>
        simp only [List.cons_append, List.cons.injEq] at heq2
        have := ih w2 t (v2 ++ [c]) xs m hm2 (by simpa using heq2.2) hr
        simp at this ⊢
        omega
    cases p with
    | lit c =>
      obtain ⟨w2, rfl, hm2⟩ := hm
      cases s2 with
      | nil => simp [regexp.run] at hrun
      | cons x xs =>
        simp only [regexp.run] at hrun
        split at hrun
        · rename_i hx
          cases hr : regexp.run ps xs with
          | none => simp [hr] at hrun
          | some m =>
            simp only [hr, Option.map_some', Option.some.injEq] at hrun
            rw [← hrun]
            exact single c w2 xs m hm2 (by rw [heq, hx]) hr
        · cases hrun
    | anyNotNL =>
      obtain ⟨x0, w2, _, rfl, hm2⟩ := hm
      cases s2 with
      | nil => simp [regexp.run] at hrun
      | cons x xs =>
        simp only [regexp.run] at hrun
        split at hrun
        · cases hrun
        · cases hr : regexp.run ps xs with
          | none => simp [hr] at hrun
          | some m =>
            simp only [hr, Option.map_some', Option.some.injEq] at hrun
            rw [← hrun]
            cases v with
            | nil =>
              simp only [List.cons_append, List.nil_append, List.cons.injEq] at heq
              have := ih w2 t [] xs m hm2 (by simpa using heq.2) hr
              simp at this ⊢
              omega
            | cons y v2 =>
              simp only [List.cons_append, List.cons.injEq] at heq
              have := ih w2 t (v2 ++ [x]) xs m hm2 (by simpa using heq.2) hr
              simp at this ⊢
              omega
    | starAnyNotNL =>
      obtain ⟨u, w2, hu, rfl, hm2⟩ := hm
      simp only [regexp.run] at hrun
      obtain ⟨us, r, m, hs, hus, hk, hn, hmax⟩ := star_some _ s2 n hrun
      have heq2 : u ++ (w2 ++ t) = (v ++ us) ++ r := by
        rw [← List.append_assoc, heq, hs, List.append_assoc]
      rcases List.append_eq_append_iff.1 heq2 with ⟨a, ha, hb⟩ | ⟨c, hc, hd⟩
      · have := ih w2 t a r m hm2 hb hk
        have hlen : (v ++ us).length = (u ++ a).length := by rw [ha]
        simp at hlen ⊢
        omega
      · cases c with
        | nil =>
          simp only [List.append_nil, List.nil_append] at hc hd
          have := ih w2 t [] r m hm2 (by simpa using hd.symm) hk
          have hlen : u.length = (v ++ us).length := by rw [hc]
          simp at hlen this ⊢
          omega
        | cons y c2 =>
          exfalso
          have hnl : NoNL (us ++ y :: c2) := by
            rw [hc, List.append_assoc] at hu
            exact hu.right
          have := hmax (us ++ y :: c2) (w2 ++ t)
            (by rw [hs, hd, List.append_assoc]) hnl (by simp)
          exact run_complete ps w2 hm2 t this

theorem find_none (ps : List regexp.Node) (s : Str) (h : regexp.find ps s = none) :
    ∀ pre rest, s = pre ++ rest → regexp.run ps rest = none := by
  induction s with
  | nil =>
    intro pre rest hs
    obtain ⟨rfl, rfl⟩ := List.append_eq_nil.1 hs.symm
    simpa [regexp.find] using h
  | cons x xs ih =>
    intro pre rest hs
    rw [regexp.find] at h
    split at h
    · cases h
    · rename_i hr
      cases pre with
      | nil =>
        simp only [List.nil_append] at hs
        rw [← hs]
        exact hr
      | cons y pre2 =>
        simp only [List.cons_append, List.cons.injEq] at hs
        exact ih h pre2 rest hs.2

theorem find_some (ps : List regexp.Node) (s m : Str) (h : regexp.find ps s = some m) :
    ∃ pre rest n, s = pre ++ rest ∧ regexp.run ps rest = some n ∧ m = rest.take n ∧
      ∀ pre2 rest2, s = pre2 ++ rest2 → pre2.length < pre.length →
        regexp.run ps rest2 = none := by
  induction s with
  | nil =>
    rw [regexp.find] at h
    cases hr : regexp.run ps [] with
    | none => simp [hr] at h
    | some n =>
      simp only [hr, Option.map_some', Option.some.injEq] at h
      refine ⟨[], [], n, rfl, hr, h.symm, ?_⟩
      intro pre2 rest2 _ hlen
      simp at hlen
  | cons x xs ih =>
    rw [regexp.find] at h
    split at h
    · rename_i n hr
      simp only [Option.some.injEq] at h
      refine ⟨[], x :: xs, n, rfl, hr, h.symm, ?_⟩
      intro pre2 rest2 _ hlen
      simp at hlen
    · rename_i hr
      obtain ⟨pre, rest, n, hs, hrun, hm, hleft⟩ := ih h
      refine ⟨x :: pre, rest, n, by rw [hs]; rfl, hrun, hm, ?_⟩
      intro pre2 rest2 hs2 hlen
      cases pre2 with
      | nil =>
        simp only [List.nil_append] at hs2
        rw [← hs2]
        exact hr
      | cons y pre3 =>
        simp only [List.cons_append, List.cons.injEq] at hs2
        exact hleft pre3 rest2 hs2.2 (by simpa using hlen)

/-- The leftmost match the search returns is matched by the pattern, no match
starts before it, and no match that starts with it is longer. -/
theorem find_leftmost_longest (ps : List regexp.Node) (s m : Str)
    (h : regexp.find ps s = some m) :
    ∃ pre post, s = pre ++ m ++ post ∧ Matches ps m ∧
      ∀ pre2 w post2, s = pre2 ++ w ++ post2 → Matches ps w →
        pre.length ≤ pre2.length ∧ (pre2.length = pre.length → w.length ≤ m.length) := by
  obtain ⟨pre, rest, n, hs, hrun, hm, hleft⟩ := find_some ps s m h
  obtain ⟨w0, t0, hrest, hlen, hmatch⟩ := run_sound ps rest n hrun
  have hm0 : m = w0 := by
    rw [hm, hrest, ← hlen]
    simp
  subst hm0
  refine ⟨pre, t0, by rw [hs, hrest, List.append_assoc], hmatch, ?_⟩
  intro pre2 w post2 hs2 hw
  have hstart : pre.length ≤ pre2.length := by
    by_contra hlt
    have := hleft pre2 (w ++ post2) (by rw [hs2, List.append_assoc]) (by omega)
    exact run_complete ps w hw post2 this
  refine ⟨hstart, fun hsame => ?_⟩
  have heq : pre2 ++ (w ++ post2) = pre ++ rest := by
    rw [← List.append_assoc, ← hs2, hs]
  have hsplit := List.append_inj heq hsame
  have := run_longest ps w post2 [] rest n hw (by simpa using hsplit.2) hrun
  simp at this
  omega

/-- The search finds a match in every text that holds one. -/
theorem find_complete (ps : List regexp.Node) (pre w post : Str) (hw : Matches ps w) :
    regexp.find ps (pre ++ w ++ post) ≠ none := by
  intro hnone
  have := find_none ps _ hnone pre (w ++ post) (by rw [List.append_assoc])
  exact run_complete ps w hw post this

/-! ## The program's pattern -/

theorem matches_nil (w : Str) : Matches [] w ↔ w = [] := Iff.rfl

theorem matches_lit (c : Char) (ps : List regexp.Node) (w : Str) :
    Matches (regexp.Node.lit c :: ps) w ↔ ∃ w2, w = c :: w2 ∧ Matches ps w2 := Iff.rfl

theorem matches_any (ps : List regexp.Node) (w : Str) :
    Matches (regexp.Node.anyNotNL :: ps) w ↔
      ∃ x w2, x ≠ '\n' ∧ w = x :: w2 ∧ Matches ps w2 := Iff.rfl

theorem matches_star (ps : List regexp.Node) (w : Str) :
    Matches (regexp.Node.starAnyNotNL :: ps) w ↔
      ∃ u w2, NoNL u ∧ w = u ++ w2 ∧ Matches ps w2 := Iff.rfl

theorem matches_lits (s : Str) (ps : List regexp.Node) (w : Str) :
    Matches (s.map regexp.Node.lit ++ ps) w ↔ ∃ w2, w = s ++ w2 ∧ Matches ps w2 := by
  induction s generalizing w with
  | nil => simp
  | cons c s ih =>
    rw [List.map_cons, List.cons_append, matches_lit]
    constructor
    · rintro ⟨w2, rfl, h⟩
      obtain ⟨w3, rfl, h3⟩ := (ih w2).1 h
      exact ⟨w3, rfl, h3⟩
    · rintro ⟨w3, rfl, h⟩
      exact ⟨s ++ w3, rfl, (ih _).2 ⟨w3, rfl, h⟩⟩

theorem re_eq :
    re = "/download/".toList.map regexp.Node.lit ++ regexp.Node.starAnyNotNL ::
      ("/graphicPacks".toList.map regexp.Node.lit ++ regexp.Node.starAnyNotNL ::
        regexp.Node.anyNotNL :: ("zip".toList.map regexp.Node.lit ++ [])) := by
  decide

/-- The texts the program's pattern matches. -/
theorem matches_re_iff (w : Str) :
    Matches re w ↔ ∃ X Y c, NoNL X ∧ NoNL Y ∧ c ≠ '\n' ∧
      w = "/download/".toList ++ X ++ "/graphicPacks".toList ++ Y ++ c :: "zip".toList := by
  rw [re_eq, matches_lits]
  constructor
  · rintro ⟨w2, rfl, h2⟩
    obtain ⟨X, w3, hX, rfl, h3⟩ := (matches_star _ _).1 h2
    obtain ⟨w4, rfl, h4⟩ := (matches_lits _ _ _).1 h3
    obtain ⟨Y, w5, hY, rfl, h5⟩ := (matches_star _ _).1 h4
    obtain ⟨c, w6, hc, rfl, h6⟩ := (matches_any _ _).1 h5
    obtain ⟨w7, rfl, h7⟩ := (matches_lits _ _ _).1 h6
    rw [(matches_nil _).1 h7]
    exact ⟨X, Y, c, hX, hY, hc, by simp only [List.append_assoc, List.append_nil]⟩
  · rintro ⟨X, Y, c, hX, hY, hc, rfl⟩
    refine ⟨X ++ "/graphicPacks".toList ++ Y ++ c :: "zip".toList,
      by simp only [List.append_assoc], ?_⟩
    refine (matches_star _ _).2 ⟨X, "/graphicPacks".toList ++ Y ++ c :: "zip".toList, hX,
      by simp only [List.append_assoc], ?_⟩
    refine (matches_lits _ _ _).2 ⟨Y ++ c :: "zip".toList, by simp only [List.append_assoc], ?_⟩
    refine (matches_star _ _).2 ⟨Y, c :: "zip".toList, hY, rfl, ?_⟩
    refine (matches_any _ _).2 ⟨c, "zip".toList, hc, rfl, ?_⟩
    exact (matches_lits _ _ _).2 ⟨[], by simp only [List.append_nil], rfl⟩

theorem noNL_of_matches_re (w : Str) (h : Matches re w) : NoNL w := by
  obtain ⟨X, Y, c, hX, hY, hc, rfl⟩ := (matches_re_iff w).1 h
  have h1 : NoNL "/download/".toList := by simp [NoNL]
  have h2 : NoNL "/graphicPacks".toList := by simp [NoNL]
  have h3 : NoNL (c :: "zip".toList) := NoNL.cons hc (by simp [NoNL])
  exact (((h1.append hX).append h2).append hY).append h3

theorem matches_re_of_assetPathOnLine (w : Str) (h : AssetPathOnLine w) : Matches re w := by
  obtain ⟨X, Y, hX, hY, rfl⟩ := h
  exact (matches_re_iff _).2 ⟨X, Y, '.', hX, hY, by decide, by simp⟩

theorem findFilePath_ok_iff (text r : Str) :
    findFilePath text = Except.ok r ↔ regexp.find re text = some r := by
  unfold findFilePath regexp.FindStringSubmatch
  cases regexp.find re text with
  | none => simp
  | some m => simp

theorem findFilePath_error_iff (text : Str) (e : Str) :
    findFilePath text = Except.error e ↔
      regexp.find re text = none ∧ e = "search key no matches".toList := by
  unfold findFilePath regexp.FindStringSubmatch
  cases regexp.find re text with
  | none =>
    simp only [Except.error.injEq, true_and]
    exact eq_comm
  | some m => simp

/-! ## Properties of `unzip` -/

theorem passes_iff (only : List Str) (dest : Str) (f : ZipFile) :
    passes only dest f = true ↔
      f.openErr = none ∧ shouldUnzip only (target dest f) = false ∧
        strings.HasPrefix (target dest f) (rootSlash dest) = true := by
  unfold passes
  cases f.openErr <;> cases shouldUnzip only (target dest f) <;>
    cases strings.HasPrefix (target dest f) (rootSlash dest) <;> simp

/-- C1: every path in the list `unzip` returns starts with `filepath.Clean(dest)`
and the separator, and so does the path of every change `unzip` makes to the
file system: the target paths (a directory made for a directory entry, a file
created, truncated or written) and the directories made to hold them. The one
other change it can make is to make the root `filepath.Clean(dest)` itself, as
the directory of a target that lies directly in it. -/
theorem unzip_targets_below_dest (env : Env) (only : List Str) (w : World) (src dest : Str) :
    (∀ p ∈ (unzip env only w src dest).filenames,
      strings.HasPrefix p (filepath.Clean dest ++ [os.PathSeparator]) = true) ∧
    ∃ added, (unzip env only w src dest).world.fsLog = w.fsLog ++ added ∧
      ∀ ev ∈ added,
        strings.HasPrefix ev.path (filepath.Clean dest ++ [os.PathSeparator]) = true ∨
        ev = FsEvent.mkdirAll (filepath.Clean dest) os.ModePerm := by
  unfold unzip
  cases env.zipOpenReader w src with
  | error e => exact ⟨by simp, [], by simp, by simp⟩
  | ok files =>
    obtain ⟨n, _, hfn, _, ⟨added, hlog, hev, _⟩, _, _⟩ := unzipLoop_spec env only dest files [] w
    refine ⟨?_, added, hlog, ?_⟩
    · intro p hp
      simp only [hfn, List.nil_append, List.mem_map, List.mem_filter] at hp
      obtain ⟨f, ⟨_, hpass⟩, rfl⟩ := hp
      exact ((passes_iff only dest f).1 hpass).2.2
    · intro ev hmem
      obtain ⟨f, _, hpass, hkind⟩ := hev ev hmem
      have hbelow := ((passes_iff only dest f).1 hpass).2.2
      rcases hkind with h | h
      · left
        rw [h]
        exact hbelow
      · rcases dir_of_join_below dest f.Name hbelow with hd | hd
        · right
          rw [h]
          unfold target
          rw [hd]
        · left
          rw [h]
          exact hd

/-- C3, as the code has it: with a filter list that is not empty, `unzip`
extracts an entry (lists its target, changes the file system for it) only if
`shouldUnzip` returns `false` for the target path, that is only if the target
path contains one of the filter strings. (What `unzip` does with an empty
filter list is the subject of C5 and left out here.) -/
theorem unzip_extracts_only_unselected (env : Env) (only : List Str) (w : World)
    (src dest : Str) (files : List ZipFile) (_hne : only ≠ [])
    (harch : env.zipOpenReader w src = Except.ok files) :
    (∀ p ∈ (unzip env only w src dest).filenames,
      ∃ f ∈ files, p = filepath.Join dest f.Name ∧
        shouldUnzip only (filepath.Join dest f.Name) = false ∧
        ∃ v ∈ only, v <:+: filepath.Join dest f.Name) ∧
    ∃ added, (unzip env only w src dest).world.fsLog = w.fsLog ++ added ∧
      ∀ ev ∈ added, ∃ f ∈ files,
        shouldUnzip only (filepath.Join dest f.Name) = false ∧
        (∃ v ∈ only, v <:+: filepath.Join dest f.Name) ∧
        (ev.path = filepath.Join dest f.Name ∨
          ev = FsEvent.mkdirAll (filepath.Dir (filepath.Join dest f.Name)) os.ModePerm) := by
  unfold unzip
  rw [harch]
  obtain ⟨n, _, hfn, _, ⟨added, hlog, hev, _⟩, _, _⟩ := unzipLoop_spec env only dest files [] w
  refine ⟨?_, added, hlog, ?_⟩
  · intro p hp
    simp only [hfn, List.nil_append, List.mem_map, List.mem_filter] at hp
    obtain ⟨f, ⟨hmem, hpass⟩, rfl⟩ := hp
    have hsel := ((passes_iff only dest f).1 hpass).2.1
    exact ⟨f, List.mem_of_mem_take hmem, rfl, hsel, (shouldUnzip_eq_false only _).1 hsel⟩
  · intro ev hmem
    obtain ⟨f, hf, hpass, hkind⟩ := hev ev hmem
    have hsel := ((passes_iff only dest f).1 hpass).2.1
    exact ⟨f, List.mem_of_mem_take hf, hsel, (shouldUnzip_eq_false only _).1 hsel, hkind⟩

theorem unzipLoop_empty_filter (env : Env) (dest : Str) (files : List ZipFile)
    (fn : List Str) (w : World) (hopen : ∀ f ∈ files, f.openErr = none) :
    unzipLoop env [] dest files fn w = ⟨fn, none, w⟩ := by
  induction files with
  | nil => rfl
  | cons f rest ih =>
    rw [unzipLoop_cons_next env [] dest f rest fn w fn w
      (unzipEntry_skip env [] dest f fn w (hopen f (by simp)) (by simp [shouldUnzip]))]
    exact ih (fun g hg => hopen g (by simp [hg]))

/-- C5, what the code does: with an empty filter list `unzip` extracts nothing;
every entry that opens is skipped, the list returned is empty and the world
is left as it was. -/
theorem unzip_empty_filter_extracts_nothing (env : Env) (w : World) (src dest : Str)
    (files : List ZipFile) (harch : env.zipOpenReader w src = Except.ok files)
    (hopen : ∀ f ∈ files, f.openErr = none) :
    unzip env [] w src dest = ⟨[], none, w⟩ := by
  unfold unzip
  rw [harch]
  exact unzipLoop_empty_filter env dest files [] w hopen

/-- C10: the list `unzip` returns holds the target paths of the entries that
opened and got past selection and escape check among the first `n` of the
archive, in the order of the archive; the outcome is that of the archive cut
after these `n` entries, and the file system is changed for such entries only.
Without error `n` is the whole archive; with an error the entries before the
`n`-th went through without one, so the `n`-th is where extraction stopped. -/
theorem unzip_filenames_in_archive_order (env : Env) (only : List Str) (w : World)
    (src dest : Str) (files : List ZipFile)
    (harch : env.zipOpenReader w src = Except.ok files) :
    ∃ n, n ≤ files.length ∧
      (unzip env only w src dest).filenames =
        ((files.take n).filter (passes only dest)).map (fun f => filepath.Join dest f.Name) ∧
      unzip env only w src dest = unzipLoop env only dest (files.take n) [] w ∧
      (∃ added, (unzip env only w src dest).world.fsLog = w.fsLog ++ added ∧
        ∀ ev ∈ added, ∃ f ∈ files.take n, passes only dest f = true ∧
          (ev.path = filepath.Join dest f.Name ∨
            ev = FsEvent.mkdirAll (filepath.Dir (filepath.Join dest f.Name)) os.ModePerm)) ∧
      ((unzip env only w src dest).err = none → n = files.length) ∧
      ((unzip env only w src dest).err ≠ none →
        0 < n ∧ (unzipLoop env only dest (files.take (n - 1)) [] w).err = none) := by
  unfold unzip
  rw [harch]
  obtain ⟨n, hn, hfn, hcut, ⟨added, hlog, hev, _⟩, hok, herr⟩ :=
    unzipLoop_spec env only dest files [] w
  exact ⟨n, hn, by simpa [target] using hfn, hcut, ⟨added, hlog, hev⟩, hok, herr⟩

/-- C3 at the selection example. -/
theorem unzip_extracts_only_unselected_witness :
    (∀ p ∈ (unzip (Env.plain [] selectionArchive) onlyBreath World.empty
        "graphicPacks1.zip".toList extractDir).filenames,
      ∃ f ∈ selectionArchive, p = filepath.Join extractDir f.Name ∧
        shouldUnzip onlyBreath (filepath.Join extractDir f.Name) = false ∧
        ∃ v ∈ onlyBreath, v <:+: filepath.Join extractDir f.Name) ∧
    ∃ added, (unzip (Env.plain [] selectionArchive) onlyBreath World.empty
        "graphicPacks1.zip".toList extractDir).world.fsLog = World.empty.fsLog ++ added ∧
      ∀ ev ∈ added, ∃ f ∈ selectionArchive,
        shouldUnzip onlyBreath (filepath.Join extractDir f.Name) = false ∧
        (∃ v ∈ onlyBreath, v <:+: filepath.Join extractDir f.Name) ∧
        (ev.path = filepath.Join extractDir f.Name ∨
          ev = FsEvent.mkdirAll (filepath.Dir (filepath.Join extractDir f.Name)) os.ModePerm) :=
  unzip_extracts_only_unselected (Env.plain [] selectionArchive) onlyBreath World.empty
    "graphicPacks1.zip".toList extractDir selectionArchive (by decide) rfl

/-- C3, the claim as stated fails: with the filter list `BreathOfTheWild` and
the entries `graphicPacks/BreathOfTheWild/a.txt` and `graphicPacks/Other/b.txt`
the one entry `unzip` lists and writes is the first, for whose target path
`shouldUnzip` returns `false`; the second, for which it returns `true`, is
skipped. -/
theorem unzip_writes_the_entry_shouldUnzip_rejects :
    (unzip (Env.plain [] selectionArchive) onlyBreath World.empty "graphicPacks1.zip".toList
      extractDir).filenames = ["graphicPacks/graphicPacks/BreathOfTheWild/a.txt".toList] ∧
    (unzip (Env.plain [] selectionArchive) onlyBreath World.empty "graphicPacks1.zip".toList
      extractDir).world.files = [("graphicPacks/graphicPacks/BreathOfTheWild/a.txt".toList,
        "a".toList)] ∧
    shouldUnzip onlyBreath "graphicPacks/graphicPacks/BreathOfTheWild/a.txt".toList = false ∧
    shouldUnzip onlyBreath "graphicPacks/graphicPacks/Other/b.txt".toList = true := by
  decide

/-- C5 at an archive of two entries: nothing is extracted. -/
theorem unzip_empty_filter_extracts_nothing_witness :
    unzip (Env.plain [] selectionArchive) [] World.empty "graphicPacks1.zip".toList extractDir =
      ⟨[], none, World.empty⟩ :=
  unzip_empty_filter_extracts_nothing (Env.plain [] selectionArchive) World.empty
    "graphicPacks1.zip".toList extractDir selectionArchive rfl (by decide)

/-- C10 at an archive whose second entry stops the extraction. -/
theorem unzip_filenames_in_archive_order_witness :
    ∃ n, n ≤ escapingArchive.length ∧
      (unzip (Env.plain [] escapingArchive) gfxPackOnly World.empty "graphicPacks1.zip".toList
        extractDir).filenames =
        ((escapingArchive.take n).filter (passes gfxPackOnly extractDir)).map
          (fun f => filepath.Join extractDir f.Name) ∧
      unzip (Env.plain [] escapingArchive) gfxPackOnly World.empty "graphicPacks1.zip".toList
        extractDir =
        unzipLoop (Env.plain [] escapingArchive) gfxPackOnly extractDir
          (escapingArchive.take n) [] World.empty ∧
      (∃ added, (unzip (Env.plain [] escapingArchive) gfxPackOnly World.empty
          "graphicPacks1.zip".toList extractDir).world.fsLog = World.empty.fsLog ++ added ∧
        ∀ ev ∈ added, ∃ f ∈ escapingArchive.take n, passes gfxPackOnly extractDir f = true ∧
          (ev.path = filepath.Join extractDir f.Name ∨
            ev = FsEvent.mkdirAll (filepath.Dir (filepath.Join extractDir f.Name))
              os.ModePerm)) ∧
      ((unzip (Env.plain [] escapingArchive) gfxPackOnly World.empty "graphicPacks1.zip".toList
        extractDir).err = none → n = escapingArchive.length) ∧
      ((unzip (Env.plain [] escapingArchive) gfxPackOnly World.empty "graphicPacks1.zip".toList
        extractDir).err ≠ none →
        0 < n ∧ (unzipLoop (Env.plain [] escapingArchive) gfxPackOnly extractDir
          (escapingArchive.take (n - 1)) [] World.empty).err = none) :=
  unzip_filenames_in_archive_order (Env.plain [] escapingArchive) gfxPackOnly World.empty
    "graphicPacks1.zip".toList extractDir escapingArchive rfl

/-- C2, the claim as stated fails: the entry `../../etc/passwd` under the root
`graphicPacks` resolves to `../etc/passwd`, outside the root, and `unzip`
with the program's filter list skips it and returns no error. -/
theorem unzip_skips_passwd_without_error :
    unzip (Env.plain [] passwdArchive) gfxPackOnly World.empty "graphicPacks1.zip".toList
      extractDir = ⟨[], none, World.empty⟩ ∧
    filepath.Clean (filepath.Join extractDir "../../etc/passwd".toList) =
      "../etc/passwd".toList ∧
    strings.HasPrefix (filepath.Clean (filepath.Join extractDir "../../etc/passwd".toList))
      (filepath.Clean extractDir ++ [os.PathSeparator]) = false := by
  decide

/-- C2, as the code has it: when the extraction gets to an entry that opens and
whose cleaned target path does not start with the cleaned root and the
separator, then, if the entry is selected (`shouldUnzip` returns `false` for
its target path), `unzip` returns the error `illegal file path` for that
path, with the list and the world as the entries before left them; and if it
is not selected, the entry is skipped, nothing is written for it, and the
extraction goes on with the entries after it. -/
theorem unzip_aborts_on_selected_escape (env : Env) (only : List Str) (w : World)
    (src dest : Str) (pre : List ZipFile) (f : ZipFile) (post : List ZipFile)
    (harch : env.zipOpenReader w src = Except.ok (pre ++ f :: post))
    (hpre : (unzipLoop env only dest pre [] w).err = none)
    (hopen : f.openErr = none)
    (hesc : strings.HasPrefix (filepath.Clean (filepath.Join dest f.Name))
      (filepath.Clean dest ++ [os.PathSeparator]) = false) :
    (shouldUnzip only (filepath.Join dest f.Name) = false →
      unzip env only w src dest =
        ⟨(unzipLoop env only dest pre [] w).filenames,
          some (filepath.Join dest f.Name ++ ": illegal file path".toList),
          (unzipLoop env only dest pre [] w).world⟩) ∧
    (shouldUnzip only (filepath.Join dest f.Name) = true →
      unzip env only w src dest =
        unzipLoop env only dest post (unzipLoop env only dest pre [] w).filenames
          (unzipLoop env only dest pre [] w).world) := by
  rw [hasPrefix_clean_join] at hesc
  unfold unzip
  rw [harch]
  dsimp only
  rw [unzipLoop_append, if_pos hpre]
  constructor
  · intro hsel
    exact unzipLoop_cons_ret env only dest f post _ _ _
      (unzipEntry_escape env only dest f _ _ hopen hsel hesc)
  · intro hsel
    exact unzipLoop_cons_next env only dest f post _ _ _ _
      (unzipEntry_skip env only dest f _ _ hopen hsel)

/-- C2 at an archive whose second entry is selected and points out of the
destination. -/
theorem unzip_aborts_on_selected_escape_witness :
    unzip (Env.plain [] escapingArchive) gfxPackOnly World.empty "graphicPacks1.zip".toList
        extractDir =
      ⟨(unzipLoop (Env.plain [] escapingArchive) gfxPackOnly extractDir
          [ZipFile.plain "BreathOfTheWild/a.txt".toList "a".toList] [] World.empty).filenames,
        some (filepath.Join extractDir
          (ZipFile.plain "../../BreathOfTheWild/passwd".toList "root".toList).Name ++
            ": illegal file path".toList),
        (unzipLoop (Env.plain [] escapingArchive) gfxPackOnly extractDir
          [ZipFile.plain "BreathOfTheWild/a.txt".toList "a".toList] [] World.empty).world⟩ :=
  (unzip_aborts_on_selected_escape (Env.plain [] escapingArchive) gfxPackOnly World.empty
    "graphicPacks1.zip".toList extractDir
    [ZipFile.plain "BreathOfTheWild/a.txt".toList "a".toList]
    (ZipFile.plain "../../BreathOfTheWild/passwd".toList "root".toList)
    [ZipFile.plain "MarioKart8/c.txt".toList "c".toList]
    rfl (by decide) rfl (by decide)).1 (by decide)

/-! ## Properties of `findFilePath` -/

/-- C6, the claim as stated fails: the text below holds `/download/`, a line
feed, `/graphicPacks` and `.zip`, a substring of the claimed shape, and
`findFilePath` returns the error. -/
theorem findFilePath_misses_path_across_lines :
    findFilePath "/download/\n/graphicPacks.zip".toList =
      Except.error "search key no matches".toList ∧
    ∃ pre w post, "/download/\n/graphicPacks.zip".toList = pre ++ w ++ post ∧ AssetPath w := by
  refine ⟨by decide, [], "/download/\n/graphicPacks.zip".toList, [], by simp, ?_⟩
  exact ⟨"\n".toList, [], by decide⟩

/-- C6, as the code has it: `findFilePath` succeeds on every text that holds an
asset path within one line (`/download/`, `/graphicPacks` and `.zip` with no
line feed between them), so it returns an error only when there is none, and
the error is `search key no matches`; what it returns on success is a
substring of the text that begins with `/download/`, holds `/graphicPacks`
further on, ends in `zip` and holds no line feed. -/
theorem findFilePath_finds_asset_path (text : Str) :
    ((∃ pre w post, text = pre ++ w ++ post ∧ AssetPathOnLine w) →
      ∃ r, findFilePath text = Except.ok r) ∧
    ((∃ e, findFilePath text = Except.error e) →
      ¬ ∃ pre w post, text = pre ++ w ++ post ∧ AssetPathOnLine w) ∧
    (∀ e, findFilePath text = Except.error e → e = "search key no matches".toList) ∧
    (∀ r, findFilePath text = Except.ok r →
      (∃ pre post, text = pre ++ r ++ post) ∧ NoNL r ∧
      ∃ X Z, r = "/download/".toList ++ X ++ "/graphicPacks".toList ++ Z ++ "zip".toList) := by
  have found : (∃ pre w post, text = pre ++ w ++ post ∧ AssetPathOnLine w) →
      ∃ r, findFilePath text = Except.ok r := by
    rintro ⟨pre, w, post, rfl, hw⟩
    have hne := find_complete re pre w post (matches_re_of_assetPathOnLine w hw)
    cases hf : regexp.find re (pre ++ w ++ post) with
    | none => exact absurd hf hne
    | some m => exact ⟨m, (findFilePath_ok_iff _ _).2 hf⟩
  refine ⟨found, ?_, ?_, ?_⟩
  · rintro ⟨e, he⟩ hex
    obtain ⟨r, hr⟩ := found hex
    rw [hr] at he
    cases he
  · intro e he
    exact ((findFilePath_error_iff text e).1 he).2
  · intro r hr
    obtain ⟨pre, post, hs, hm, _⟩ :=
      find_leftmost_longest re text r ((findFilePath_ok_iff _ _).1 hr)
    refine ⟨⟨pre, post, hs⟩, noNL_of_matches_re r hm, ?_⟩
    obtain ⟨X, Y, c, _, _, _, rfl⟩ := (matches_re_iff r).1 hm
    exact ⟨X, Y ++ [c], by simp⟩

/-- C6 at a page with one link. -/
theorem findFilePath_finds_asset_path_witness :
    ∃ r, findFilePath "<a href=\"/download/v1/graphicPacks1.zip\">".toList = Except.ok r :=
  (findFilePath_finds_asset_path "<a href=\"/download/v1/graphicPacks1.zip\">".toList).1
    ⟨"<a href=\"".toList, "/download/v1/graphicPacks1.zip".toList, "\">".toList, by decide,
      "v1".toList, "1".toList, by simp [NoNL], by simp [NoNL], by decide⟩

/-- C7, the claim as stated fails: with two asset paths on one line
`findFilePath` returns the text from the start of the first to the end of the
second, not the first alone. -/
theorem findFilePath_spans_two_paths_on_a_line :
    findFilePath "/download/v1/graphicPacks1.zip /download/v2/graphicPacks2.zip".toList =
      Except.ok "/download/v1/graphicPacks1.zip /download/v2/graphicPacks2.zip".toList ∧
    AssetPathOnLine "/download/v1/graphicPacks1.zip".toList ∧
    AssetPathOnLine "/download/v2/graphicPacks2.zip".toList ∧
    findFilePath "/download/v1/graphicPacks1.zip /download/v2/graphicPacks2.zip".toList ≠
      Except.ok "/download/v1/graphicPacks1.zip".toList := by
  refine ⟨by decide, ?_, ?_, by decide⟩
  · exact ⟨"v1".toList, "1".toList, by simp [NoNL], by simp [NoNL], by decide⟩
  · exact ⟨"v2".toList, "2".toList, by simp [NoNL], by simp [NoNL], by decide⟩

/-- Two matches of the program's pattern with no line feed between them make
one match from the start of the first to the end of the second. -/
theorem matches_re_span (p mid p2 : Str) (hp : Matches re p) (hp2 : Matches re p2)
    (hmid : NoNL mid) : Matches re (p ++ mid ++ p2) := by
  have hnl := noNL_of_matches_re p hp
  obtain ⟨X1, Y1, c1, hX1, hY1, hc1, rfl⟩ := (matches_re_iff p).1 hp
  obtain ⟨X2, Y2, c2, hX2, hY2, hc2, rfl⟩ := (matches_re_iff p2).1 hp2
  have hD : NoNL "/download/".toList := by simp [NoNL]
  refine (matches_re_iff _).2
    ⟨X1 ++ "/graphicPacks".toList ++ Y1 ++ c1 :: "zip".toList ++ mid ++
      "/download/".toList ++ X2, Y2, c2, ?_, hY2, hc2, by simp only [List.append_assoc]⟩
  have h1 : NoNL (X1 ++ "/graphicPacks".toList ++ Y1 ++ c1 :: "zip".toList) := by
    have : NoNL ("/download/".toList ++
        (X1 ++ "/graphicPacks".toList ++ Y1 ++ c1 :: "zip".toList)) := by
      simpa only [List.append_assoc] using hnl
    exact NoNL.right this
  exact NoNL.append (NoNL.append (NoNL.append h1 hmid) hD) hX2

/-- C7, as the code has it: what `findFilePath` returns is a match of the
program's pattern that begins at the leftmost place of the text where a match
of the pattern begins, and no match beginning there is longer (`.*` is
greedy). So for a match `p` that begins at that leftmost place: when `p` is
followed by a line feed or by the end of the text, `findFilePath` returns `p`
alone; when `p` is followed on its line (no line feed between them) by a
second match `p2`, what `findFilePath` returns begins where `p` begins and
begins with `p`, the text between and `p2`, so it is not `p` alone. -/
theorem findFilePath_leftmost_longest (text : Str) :
    (∀ r, findFilePath text = Except.ok r →
      ∃ pre post, text = pre ++ r ++ post ∧ Matches re r ∧
        ∀ pre2 w post2, text = pre2 ++ w ++ post2 → Matches re w →
          pre.length ≤ pre2.length ∧ (pre2.length = pre.length → w.length ≤ r.length)) ∧
    (∀ pre p post, text = pre ++ p ++ post → Matches re p →
      (post = [] ∨ ∃ post2, post = '\n' :: post2) →
      (∀ pre2 w post2, text = pre2 ++ w ++ post2 → Matches re w → pre.length ≤ pre2.length) →
      findFilePath text = Except.ok p) ∧
    (∀ pre p mid p2 post, text = pre ++ p ++ mid ++ p2 ++ post → Matches re p →
      Matches re p2 → NoNL mid →
      (∀ pre2 w post2, text = pre2 ++ w ++ post2 → Matches re w → pre.length ≤ pre2.length) →
      ∃ r rest, findFilePath text = Except.ok r ∧ text = pre ++ r ++ rest ∧
        p ++ mid ++ p2 <+: r ∧ r ≠ p) := by
  -- the result when a match `p` begins at the leftmost place
  have at_first : ∀ pre p post, text = pre ++ p ++ post → Matches re p →
      (∀ pre2 w post2, text = pre2 ++ w ++ post2 → Matches re w → pre.length ≤ pre2.length) →
      ∃ m post1, regexp.find re text = some m ∧ Matches re m ∧
        m ++ post1 = p ++ post ∧ p.length ≤ m.length := by
    intro pre p post hs hp hfirst
    have hne : regexp.find re text ≠ none := by
      rw [hs]
      exact find_complete re pre p post hp
    cases hf : regexp.find re text with
    | none => exact absurd hf hne
    | some m =>
      obtain ⟨pre1, post1, hs1, hm, hbest⟩ := find_leftmost_longest re text m hf
      have h1 := hbest pre p post hs hp
      have h2 := hfirst pre1 m post1 hs1 hm
      have hlen : pre1.length = pre.length := by omega
      have heq : pre1 ++ (m ++ post1) = pre ++ (p ++ post) := by
        rw [← List.append_assoc, ← List.append_assoc, ← hs1, ← hs]
      exact ⟨m, post1, rfl, hm, (List.append_inj heq hlen).2, h1.2 hlen.symm⟩
  refine ⟨?_, ?_, ?_⟩
  · intro r hr
    exact find_leftmost_longest re text r ((findFilePath_ok_iff _ _).1 hr)
  · intro pre p post hs hp hpost hfirst
    obtain ⟨m, post1, hf, hm, hsplit, hpm⟩ := at_first pre p post hs hp hfirst
    have hmp : m = p := by
      rcases List.append_eq_append_iff.1 hsplit with ⟨a, ha, hb⟩ | ⟨c, hc, hd⟩
      · have : a = [] := by
          have hl : p.length = (m ++ a).length := by rw [ha]
          simp at hl
          exact List.eq_nil_of_length_eq_zero (by omega)
        rw [ha, this, List.append_nil]
      · cases c with
        | nil => rw [hc, List.append_nil]
        | cons y c2 =>
          exfalso
          have hnl := noNL_of_matches_re m hm
          rw [hc] at hnl
          have hy : y ≠ '\n' := NoNL.head (NoNL.right hnl)
          rcases hpost with hnil | ⟨post2, hnl2⟩
          · rw [hnil] at hd
            cases hd
          · rw [hnl2] at hd
            simp only [List.cons_append, List.cons.injEq] at hd
            exact hy hd.1.symm
    rw [(findFilePath_ok_iff _ _), hf, hmp]
  · intro pre p mid p2 post hs hp hp2 hmid hfirst
    have hspan := matches_re_span p mid p2 hp hp2 hmid
    have hs2 : text = pre ++ (p ++ mid ++ p2) ++ post := by
      rw [hs]
      simp only [List.append_assoc]
    obtain ⟨m, post1, hf, hm, hsplit, hlen⟩ := at_first pre (p ++ mid ++ p2) post hs2 hspan hfirst
    have hpre : p ++ mid ++ p2 <+: m :=
      List.prefix_of_prefix_length_le ⟨post, rfl⟩ ⟨post1, hsplit⟩ hlen
    refine ⟨m, post1, (findFilePath_ok_iff _ _).2 hf, ?_, hpre, ?_⟩
    · rw [hs2, List.append_assoc pre m post1, hsplit, List.append_assoc pre]
    · intro hmp
      obtain ⟨X2, Y2, c2, _, _, _, h2⟩ := (matches_re_iff p2).1 hp2
      have hl2 : 0 < p2.length := by
        rw [h2]
        simp
      have hlen2 : p.length + mid.length + p2.length ≤ m.length := by
        simpa only [List.length_append] using hlen
      rw [hmp] at hlen2
      omega

/-- C7 on two lines: the path on the first line is returned alone. -/
theorem findFilePath_leftmost_longest_witness :
    findFilePath "/download/v1/graphicPacks1.zip\n/download/v2/graphicPacks2.zip".toList =
      Except.ok "/download/v1/graphicPacks1.zip".toList :=
  (findFilePath_leftmost_longest
      "/download/v1/graphicPacks1.zip\n/download/v2/graphicPacks2.zip".toList).2.1
    [] "/download/v1/graphicPacks1.zip".toList "\n/download/v2/graphicPacks2.zip".toList
    (by decide)
    ((matches_re_iff _).2 ⟨"v1".toList, "1".toList, '.', by simp [NoNL], by simp [NoNL],
      by decide, by decide⟩)
    (Or.inr ⟨"/download/v2/graphicPacks2.zip".toList, by decide⟩)
    (fun _ _ _ _ _ => Nat.zero_le _)

/-! ## Properties of `main` and `download` -/

theorem isNotExist_stat_of_present (env : Env) (w : World) (p : Str)
    (h : w.present p = true) : os.IsNotExist (os.Stat env w p) = false := by
  unfold os.Stat
  cases env.statErr w p with
  | some e => rfl
  | none => simp [h, os.IsNotExist]

/-- The world in which `main` reaches its check for the archive. -/
theorem main_of_located (env : Env) (w : World) (resp : Response) (p : Str)
    (hget : env.httpGet (rootURL ++ "/latest".toList) = Except.ok resp)
    (hread : resp.readErr = none)
    (hloc : findFilePath resp.body = Except.ok p)
    (hfile : w.present (filepath.Base p) = true) :
    main env w =
      { w with
        requests := w.requests ++ [rootURL ++ "/latest".toList]
        stdout := w.stdout ++
          ["---------------------------------------\n".toList,
           "\tGraphic Packs Updater\n".toList,
           "---------------------------------------\n".toList,
           "loading ".toList ++ (rootURL ++ "/latest".toList) ++ "\n".toList,
           "your graphic-packs is up-to-date! ".toList ++ filepath.Base p ++ "\n".toList,
           "Press 'Enter' to finish...".toList]
        exitCode := some 0 } := by
  have hstat : os.IsNotExist (os.Stat env
      { (fmt.Println (intro w) ["loading".toList, rootURL ++ "/latest".toList]) with
        requests := (fmt.Println (intro w)
          ["loading".toList, rootURL ++ "/latest".toList]).requests ++
            [rootURL ++ "/latest".toList] } (filepath.Base p)) = false :=
    isNotExist_stat_of_present env _ _ hfile
  unfold main
  simp only [hget, hread, hloc, hstat]
  simp [exit, os.Exit, fmt.Print, fmt.Println, fmt.spaced, intro]

/-- C8: when the page is loaded, the locator finds the path `p` and a file
named `filepath.Base(p)` exists, the run of `main` requests the release page
and nothing else, changes nothing in the file system, prints the up-to-date
message and the prompt, and exits; and a second run after it does the same. -/
theorem main_skips_download_when_archive_present (env : Env) (w : World) (resp : Response)
    (p : Str)
    (hget : env.httpGet (rootURL ++ "/latest".toList) = Except.ok resp)
    (hread : resp.readErr = none)
    (hloc : findFilePath resp.body = Except.ok p)
    (hfile : w.present (filepath.Base p) = true) :
    ((main env w).requests = w.requests ++ [rootURL ++ "/latest".toList] ∧
      (main env w).fsLog = w.fsLog ∧ (main env w).files = w.files ∧
      (main env w).dirs = w.dirs ∧
      (main env w).stdout = w.stdout ++
        ["---------------------------------------\n".toList,
         "\tGraphic Packs Updater\n".toList,
         "---------------------------------------\n".toList,
         "loading ".toList ++ (rootURL ++ "/latest".toList) ++ "\n".toList,
         "your graphic-packs is up-to-date! ".toList ++ filepath.Base p ++ "\n".toList,
         "Press 'Enter' to finish...".toList] ∧
      (main env w).exitCode = some 0) ∧
    ((main env (main env w)).requests =
        w.requests ++ [rootURL ++ "/latest".toList, rootURL ++ "/latest".toList] ∧
      (main env (main env w)).fsLog = w.fsLog ∧
      (main env (main env w)).files = w.files ∧
      (main env (main env w)).dirs = w.dirs ∧
      (main env (main env w)).exitCode = some 0) := by
  have h1 := main_of_located env w resp p hget hread hloc hfile
  have hfile2 : (main env w).present (filepath.Base p) = true := by
    rw [h1]
    exact hfile
  have h2 := main_of_located env (main env w) resp p hget hread hloc hfile2
  refine ⟨?_, ?_⟩
  · rw [h1]
    exact ⟨rfl, rfl, rfl, rfl, rfl, rfl⟩
  · rw [h2, h1]
    exact ⟨by simp, rfl, rfl, rfl, rfl⟩

/-- C8 at a run with the archive `graphicPacks1.zip` in place. -/
theorem main_skips_download_when_archive_present_witness :
    (main (Env.plain "<a href=\"/download/v1/graphicPacks1.zip\">".toList [])
        { World.empty with files := [("graphicPacks1.zip".toList, "PK".toList)] }).requests =
      [rootURL ++ "/latest".toList] :=
  (main_skips_download_when_archive_present
    (Env.plain "<a href=\"/download/v1/graphicPacks1.zip\">".toList [])
    { World.empty with files := [("graphicPacks1.zip".toList, "PK".toList)] }
    ⟨"<a href=\"/download/v1/graphicPacks1.zip\">".toList, none⟩
    "/download/v1/graphicPacks1.zip".toList rfl rfl (by decide) (by decide)).1.1


theorem openFile_rdonly_create_missing (env : Env) (w : World) (path : Str) (perm : Nat)
    (herr : env.openFileErr w path (os.O_RDONLY ||| os.O_CREATE) = none)
    (hc : w.content path = none) :
    os.OpenFile env w path (os.O_RDONLY ||| os.O_CREATE) perm =
      (Except.ok ⟨path, false⟩,
        { w with files := w.store path [], fsLog := w.fsLog ++ [FsEvent.create path perm] }) := by
  unfold os.OpenFile
  rw [herr, hc]
  have hflag : (os.O_RDONLY ||| os.O_CREATE) &&& os.O_CREATE ≠ 0 := by decide
  have hmode : decide ((os.O_RDONLY ||| os.O_CREATE) &&& 3 ≠ os.O_RDONLY) = false := by decide
  dsimp only
  rw [if_pos hflag, hmode]

theorem openFile_rdonly_create_existing (env : Env) (w : World) (path : Str) (perm : Nat)
    (old : Str) (herr : env.openFileErr w path (os.O_RDONLY ||| os.O_CREATE) = none)
    (hc : w.content path = some old) :
    os.OpenFile env w path (os.O_RDONLY ||| os.O_CREATE) perm = (Except.ok ⟨path, false⟩, w) := by
  unfold os.OpenFile
  rw [herr, hc]
  have hmode : decide ((os.O_RDONLY ||| os.O_CREATE) &&& 3 ≠ os.O_RDONLY) = false := by decide
  dsimp only
  rw [hmode, if_neg (by simp)]

theorem ioCopy_not_writable (env : Env) (w : World) (path data : Str) (readErr : Option Str)
    (hdata : data ≠ []) :
    ioCopy env w ⟨path, false⟩ data readErr =
      ((0, some ("write ".toList ++ path ++ ": bad file descriptor".toList)), w) := by
  unfold ioCopy os.write
  rw [if_neg hdata]
  rfl

theorem content_store (files : List (Str × Str)) (path data : Str) :
    ((((path, data) :: files.filter (fun f => f.1 ≠ path)).find?
      (fun f => f.1 = path)).map (fun f => f.2)) = some data := by
  simp

/-- C9, what the code does: when the request succeeds with a body that is not
empty and the system does not refuse to open the file, `download` returns the
error of a write to a file that is not open for writing (the file is opened
with `O_RDONLY|O_CREATE`), and the file holds what it held before, or nothing
when it was made by this call. -/
theorem download_cannot_write_body (env : Env) (w : World) (path : Str) (resp : Response)
    (hget : env.httpGet (rootURL ++ path) = Except.ok resp)
    (hbody : resp.body ≠ [])
    (hopen : ∀ w2 flag, env.openFileErr w2 (filepath.Base (rootURL ++ path)) flag = none) :
    (download env w path).1 =
      Except.error ("write ".toList ++ filepath.Base (rootURL ++ path) ++
        ": bad file descriptor".toList) ∧
    (download env w path).2.content (filepath.Base (rootURL ++ path)) =
      some ((w.content (filepath.Base (rootURL ++ path))).getD []) := by
  unfold download
  simp only [hget]
  generalize hw1 : ({ fmt.Println w ["downloading".toList, rootURL ++ path] with
    requests := (fmt.Println w ["downloading".toList, rootURL ++ path]).requests ++
      [rootURL ++ path] } : World) = w1
  have hcont : w1.content (filepath.Base (rootURL ++ path)) =
      w.content (filepath.Base (rootURL ++ path)) := by
    rw [← hw1]
    rfl
  cases hc : w.content (filepath.Base (rootURL ++ path)) with
  | none =>
    rw [openFile_rdonly_create_missing env w1 _ _ (hopen _ _) (hcont.trans hc)]
    dsimp only
    rw [ioCopy_not_writable env _ _ _ _ hbody]
    exact ⟨rfl, content_store _ _ _⟩
  | some old =>
    rw [openFile_rdonly_create_existing env w1 _ _ old (hopen _ _) (hcont.trans hc)]
    dsimp only
    rw [ioCopy_not_writable env _ _ _ _ hbody]
    exact ⟨rfl, hcont.trans hc⟩

/-- C9 at a fresh directory and a body of two bytes. -/
theorem download_cannot_write_body_witness :
    (download (Env.plain "PK".toList []) World.empty "/download/v1/graphicPacks1.zip".toList).1 =
      Except.error ("write ".toList ++
        filepath.Base (rootURL ++ "/download/v1/graphicPacks1.zip".toList) ++
        ": bad file descriptor".toList) ∧
    (download (Env.plain "PK".toList []) World.empty
      "/download/v1/graphicPacks1.zip".toList).2.content
        (filepath.Base (rootURL ++ "/download/v1/graphicPacks1.zip".toList)) =
      some ((World.empty.content
        (filepath.Base (rootURL ++ "/download/v1/graphicPacks1.zip".toList))).getD []) :=
  download_cannot_write_body (Env.plain "PK".toList []) World.empty
    "/download/v1/graphicPacks1.zip".toList ⟨"PK".toList, none⟩ rfl (by decide)
    (fun _ _ => rfl)

end GraphicPacksUpdater
